import Mathlib

/-!
# Formal model of the YALPS linear-programming solver

This file is a shallow embedding, over exact rationals, of the core of the
YALPS LP/MILP solver:

* `src/tableau.ts` — the tableau builder (`tableauModel`);
* `src/simplex.ts` — `pivot`, `hasCycle`, `phase2`, `phase1` (the file whose
  contents appear in the repository snapshot as an unnamed source part);
* `src/util.ts` — `roundToPrecision`;
* `src/branchAndCut.ts` — `applyCuts`, `mostFractionalVar`, `branchAndCut`;
* the older single-file `src/YALPS.ts` variant of the solver (namespace `Y`
  below), whose `solve`, `solution`, `phase2`, `hasCycle` and branch-and-cut
  status computation differ from the modular files in small but observable
  ways.

Conventions of the embedding:

* IEEE-754 doubles are modelled as exact rationals `ℚ`.  The special values
  `-Infinity` / `+Infinity` used for constraint bounds, `minRatio`, `bestEval`
  and the timeout are modelled with `WithBot ℚ` / `WithTop ℚ`; `NaN` results
  are modelled with `Option ℚ` (`none` = NaN).
* `Float64Array` matrices are modelled as total functions `ℕ → ℕ → ℚ`
  (row-major access `matrix[r*width+c]` becomes `matrix r c`); all writes of
  the source are guarded by the same loop bounds as in the source.
* `Int32Array` position maps are modelled as `List ℕ`; `List.set` is a no-op
  out of bounds, exactly like a typed-array store, and reads use `getD _ 0`.
* `Date.now()` is modelled by an explicit clock stream `clk : ℕ → ℚ` together
  with a counter for the next reading.
* The external `heap` npm dependency (a port of CPython's `heapq` binary
  min-heap) is not part of the repository; it is modelled from the spec
  ("a standard min-heap keyed by LP bound") by the `heapq` push/pop algorithm
  it implements, see `heapPush` / `heapPop`.
-/

/-- JavaScript `Math.round`: round half-way cases up (towards `+∞`). -/
def jsRound (q : ℚ) : ℤ := ⌊q + 1/2⌋

/-- JavaScript `Number.EPSILON = 2⁻⁵²`. -/
def jsEps : ℚ := 1 / 4503599627370496

/-- `roundToPrecision` from `src/util.ts`:
`Math.round((num + Number.EPSILON) * Math.round(1/precision)) / Math.round(1/precision)`. -/
def roundToPrecision (num precision : ℚ) : ℚ :=
  let rounding : ℚ := (jsRound (1 / precision) : ℤ)
  (jsRound ((num + jsEps) * rounding) : ℤ) / rounding

/-- The five solution statuses of the solver (`SolutionStatus` in `types.ts`). -/
inductive SolutionStatus where
  | optimal | infeasible | unbounded | timedout | cycled
deriving DecidableEq, Repr

/-- The tableau of `src/tableau.ts`: a dense `height × width` matrix whose row 0
is the objective row and column 0 the RHS column, plus the two position maps.
The matrix is a total function (reads out of the stored range never happen in
the source's in-bounds loops); the maps are lists mirroring the `Int32Array`s. -/
structure Tableau where
  matrix : ℕ → ℕ → ℚ
  width : ℕ
  height : ℕ
  positionOfVariable : List ℕ
  variableAtPosition : List ℕ

/-- `index` from `src/tableau.ts`. -/
def Tableau.index (t : Tableau) (row col : ℕ) : ℚ := t.matrix row col

/-- `update` from `src/tableau.ts`. -/
def Tableau.update (t : Tableau) (row col : ℕ) (value : ℚ) : Tableau :=
  { t with matrix := fun r c => if r = row ∧ c = col then value else t.matrix r c }

/-- A two-sided bound descriptor (`Constraint` in `types.ts`); absent fields
are `none`. -/
structure Constraint where
  equal : Option ℚ := none
  min : Option ℚ := none
  max : Option ℚ := none
deriving DecidableEq, Repr

/-- The input model.  Mappings and iterables are both normalised to ordered
association lists, which is what `convertToIterable` produces in the source.
`direction` is kept as the raw runtime string so that the dynamic direction
check of the older `YALPS.ts` entry point is representable. -/
structure Model (V C : Type) where
  direction : Option String := none
  objective : Option C := none
  constraints : List (C × Constraint) := []
  vars : List (V × List (C × ℚ)) := []
  integers : Option (Bool ⊕ List V) := none
  binaries : Option (Bool ⊕ List V) := none

/-- `convertToSet` from `src/tableau.ts`: `true` stays `true`; `false`,
`undefined` and explicit key collections become a set (kept as the key list;
only membership is ever used). -/
def convertToSet {V : Type} : Option (Bool ⊕ List V) → Bool ⊕ List V
  | none => .inr []
  | some (.inl true) => .inl true
  | some (.inl false) => .inr []
  | some (.inr l) => .inr l

/-- Membership test `binaryVariables === true || binaryVariables.has(key)`. -/
def setHas {V : Type} [DecidableEq V] : Bool ⊕ List V → V → Bool
  | .inl b, _ => b
  | .inr l, k => l.contains k

/-- The walk over the vars that collects 1-based binary columns and
integer columns (`binaryConstraintCol` and `ints` in `tableauModel`).  The
source indexes vars from `i = 1` to `vars.length`. -/
def collectIntCols {V C : Type} [DecidableEq V]
    (binaryVariables integerVariables : Bool ⊕ List V)
    (vars : List (V × List (C × ℚ))) : List ℕ × List ℕ :=
  vars.enum.foldl
    (fun (acc : List ℕ × List ℕ) e =>
      let key := e.2.1
      if setHas binaryVariables key then (acc.1 ++ [e.1 + 1], acc.2 ++ [e.1 + 1])
      else if setHas integerVariables key then (acc.1, acc.2 ++ [e.1 + 1])
      else acc)
    ([], [])

/-- Merged bounds of one constraint key: `lower` starts at `-Infinity`,
`upper` at `Infinity`. -/
structure Bounds where
  lower : WithBot ℚ
  upper : WithTop ℚ
deriving DecidableEq

/-- `constraint.equal ?? constraint.min ?? -Infinity`. -/
def effLower (c : Constraint) : WithBot ℚ :=
  match c.equal with
  | some q => (q : WithBot ℚ)
  | none => match c.min with
    | some q => (q : WithBot ℚ)
    | none => ⊥

/-- `constraint.equal ?? constraint.max ?? Infinity`. -/
def effUpper (c : Constraint) : WithTop ℚ :=
  match c.equal with
  | some q => (q : WithTop ℚ)
  | none => match c.max with
    | some q => (q : WithTop ℚ)
    | none => ⊤

/-- In-place tightening of a bounds record by one constraint entry:
`bounds.lower = Math.max(bounds.lower, …)`, `bounds.upper = Math.min(…)`. -/
def tighten (b : Bounds) (c : Constraint) : Bounds :=
  { lower := max b.lower (effLower c), upper := min b.upper (effUpper c) }

/-- One step of the constraint-merging loop of `tableauModel`: look the key up
in the insertion-ordered map, tighten in place, and insert at the tail on
first occurrence. -/
def mergeStep {C : Type} [DecidableEq C]
    (acc : List (C × Bounds)) (e : C × Constraint) : List (C × Bounds) :=
  if (acc.lookup e.1).isSome then
    acc.map fun kb => if kb.1 = e.1 then (kb.1, tighten kb.2 e.2) else kb
  else
    acc ++ [(e.1, tighten ⟨⊥, ⊤⟩ e.2)]

/-- The whole constraint-merging loop: a `Map` keyed by constraint key in
first-occurrence order, each entry holding the intersection of all bounds
given for that key. -/
def mergeConstraints {C : Type} [DecidableEq C]
    (constraints : List (C × Constraint)) : List (C × Bounds) :=
  constraints.foldl mergeStep []

/-- Number of tableau rows a bounds record occupies (finite sides). -/
def Bounds.sides (b : Bounds) : ℕ :=
  (if b.lower = ⊥ then 0 else 1) + (if b.upper = ⊤ then 0 else 1)

/-- The row-assignment loop: starting at row 1, each merged constraint is
given its first row index; the running counter ends as `numConstraints`. -/
def assignRows {C : Type} (merged : List (C × Bounds)) :
    List (C × ℕ × Bounds) × ℕ :=
  merged.foldl
    (fun acc e => (acc.1 ++ [(e.1, acc.2, e.2)], acc.2 + e.2.sides))
    ([], 1)

/-- A tableau with its context (`TableauModel` in `src/tableau.ts`). -/
structure TableauModel (V C : Type) where
  tableau : Tableau
  sign : ℚ
  vars : List (V × List (C × ℚ))
  integers : List ℕ

/-- The identity-initialisation loop for the two position maps
(`positionOfVariable[i] = i; variableAtPosition[i] = i`), starting from a
zero-filled `Int32Array`. -/
def initMaps (n : ℕ) : List ℕ :=
  (List.range n).foldl (fun l i => l.set i i) (List.replicate n 0)

/-- The coefficient-fill inner step: one `[constraint, coef]` entry of one
variable column.  The objective write and the constraint-row writes are
sequential, exactly as in the source. -/
def fillEntry {C : Type} [DecidableEq C] (objective : Option C) (sign : ℚ)
    (rows : List (C × ℕ × Bounds)) (c : ℕ) (t : Tableau) (e : C × ℚ) : Tableau :=
  let t := if objective = some e.1 then t.update 0 c (sign * e.2) else t
  match rows.lookup e.1 with
  | none => t
  | some (row, b) =>
    if b.upper ≠ ⊤ then
      let t := t.update row c e.2
      if b.lower ≠ ⊥ then t.update (row + 1) c (-e.2) else t
    else if b.lower ≠ ⊥ then t.update row c (-e.2)
    else t

/-- The coefficient-fill loop over the variable columns `c ∈ [1, width)`. -/
def fillCoefs {V C : Type} [DecidableEq C] (objective : Option C) (sign : ℚ)
    (rows : List (C × ℕ × Bounds)) (vars : List (V × List (C × ℚ)))
    (t : Tableau) : Tableau :=
  vars.enum.foldl
    (fun t ive => ive.2.2.foldl (fun t e => fillEntry objective sign rows (ive.1 + 1) t e) t)
    t

/-- The RHS-fill loop over the merged constraints. -/
def fillRhs {C : Type} (rows : List (C × ℕ × Bounds)) (t : Tableau) : Tableau :=
  rows.foldl
    (fun t e =>
      let row := e.2.1
      let b := e.2.2
      if b.upper ≠ ⊤ then
        let t := t.update row 0 (b.upper.untop' 0)
        if b.lower ≠ ⊥ then t.update (row + 1) 0 (-(b.lower.unbot' 0)) else t
      else if b.lower ≠ ⊥ then t.update row 0 (-(b.lower.unbot' 0))
      else t)
    t

/-- The binary-row loop: row `numConstraints + b` gets RHS `1` and a `1` in
the binary column. -/
def fillBinary (numConstraints : ℕ) (binCols : List ℕ) (t : Tableau) : Tableau :=
  binCols.enum.foldl
    (fun t e => (t.update (numConstraints + e.1) 0 1).update (numConstraints + e.1) e.2 1)
    t

/-- `tableauModel` from `src/tableau.ts`: the deterministic construction of the
initial tableau from a model. -/
def tableauModel {V C : Type} [DecidableEq V] [DecidableEq C]
    (m : Model V C) : TableauModel V C :=
  let sign : ℚ := if m.direction = some "minimize" then -1 else 1
  let colls :=
    if m.integers ≠ none ∨ m.binaries ≠ none then
      let binaryVariables := convertToSet m.binaries
      let integerVariables :=
        if binaryVariables = .inl true then .inl true else convertToSet m.integers
      collectIntCols binaryVariables integerVariables m.vars
    else ([], [])
  let binCols := colls.1
  let ints := colls.2
  let rowsNum := assignRows (mergeConstraints m.constraints)
  let rows := rowsNum.1
  let numConstraints := rowsNum.2
  let width := m.vars.length + 1
  let height := numConstraints + binCols.length
  let numVars := width + height
  let t0 : Tableau :=
    { matrix := fun _ _ => 0
      width := width
      height := height
      positionOfVariable := initMaps numVars
      variableAtPosition := initMaps numVars }
  let t := fillBinary numConstraints binCols (fillRhs rows (fillCoefs m.objective sign rows m.vars t0))
  { tableau := t, sign := sign, vars := m.vars, integers := ints }

/-- The `1e-16` sparsity threshold used by `pivot`. -/
def nzEps : ℚ := 1 / 10 ^ 16

/-- `pivot` from the simplex source file: swap the entering and leaving
variables in the position maps, scale the pivot row (entries of magnitude at
most `1e-16` become exact zero, and `M[row, col]` becomes `1/quotient`), then
eliminate the pivot column from every other row, restricted to the recorded
non-zero columns of the original pivot row, with `M[r, col] := -coef/quotient`
overwritten last.  Rows with `|M[r, col]| ≤ 1e-16` are skipped entirely. -/
def pivot (t : Tableau) (row col : ℕ) : Tableau :=
  let quotient := t.index row col
  let leaving := t.variableAtPosition.getD (t.width + row) 0
  let entering := t.variableAtPosition.getD col 0
  let vap := (t.variableAtPosition.set (t.width + row) entering).set col leaving
  let pov := (t.positionOfVariable.set leaving col).set entering (t.width + row)
  let scaled : ℕ → ℕ → ℚ := fun r c =>
    if r = row ∧ r < t.height ∧ c < t.width then
      if c = col then 1 / quotient
      else if |t.matrix row c| > nzEps then t.matrix row c / quotient else 0
    else t.matrix r c
  let eliminated : ℕ → ℕ → ℚ := fun r c =>
    if r ≠ row ∧ r < t.height then
      let coef := t.matrix r col
      if |coef| > nzEps then
        if c = col then -coef / quotient
        else if c < t.width ∧ |t.matrix row c| > nzEps then
          scaled r c - coef * scaled row c
        else scaled r c
      else scaled r c
    else scaled r c
  { matrix := eliminated
    width := t.width
    height := t.height
    positionOfVariable := pov
    variableAtPosition := vap }

/-- `hasCycle`, parametrised by the minimum cycle length checked (`6` in the
modular simplex, `1` in the older `YALPS.ts`).  Appends the new
`(leaving, entering)` pair to the history and looks for a repeated tail. -/
def hasCycle (minLen : ℕ) (history : List (ℕ × ℕ)) (t : Tableau) (row col : ℕ) :
    Bool × List (ℕ × ℕ) :=
  let h := history ++
    [(t.variableAtPosition.getD (t.width + row) 0, t.variableAtPosition.getD col 0)]
  let found := (List.range' minLen (h.length / 2 + 1 - minLen)).any fun len =>
    (List.range len).all fun i =>
      h.getD (h.length - 1 - i) (0, 0) = h.getD (h.length - 1 - i - len) (0, 0)
  (found, h)

/-- The outcome of a simplex run: the status together with its companion
number (the rounded objective for `optimal`, the entering column for
`unbounded`, `NaN` — represented by the absence of a payload — otherwise). -/
inductive SimplexRes where
  | optimal (result : ℚ)
  | infeasible
  | unbounded (col : ℕ)
  | cycled
deriving DecidableEq, Repr

/-- The `SolutionStatus` component of a simplex outcome. -/
def SimplexRes.status : SimplexRes → SolutionStatus
  | .optimal _ => .optimal
  | .infeasible => .infeasible
  | .unbounded _ => .unbounded
  | .cycled => .cycled

/-- Solver options (`Options` in `types.ts`), already completed with defaults. -/
structure Options where
  precision : ℚ
  checkCycles : Bool
  maxPivots : ℕ
  tolerance : ℚ
  timeout : WithTop ℚ
  maxIterations : ℕ
  includeZeroVariables : Bool
deriving DecidableEq

/-- The entering-column selection of the modular `phase2`: the first column
`c ∈ [1, width)` attaining the maximum reduced cost, provided that maximum
exceeds `precision`; `0` when no column qualifies. -/
def enteringCol (t : Tableau) (p : ℚ) : ℕ :=
  ((List.range' 1 (t.width - 1)).foldl
    (fun (acc : ℕ × ℚ) c => if t.index 0 c > acc.2 then (c, t.index 0 c) else acc)
    (0, p)).1

/-- The scan of the leaving-row selection of the modular `phase2`: track the
row of the smallest ratio seen so far, and break out as soon as an accepted
ratio is at most `precision`. -/
def leavingRowGo (t : Tableau) (col : ℕ) (p : ℚ) :
    List ℕ → ℕ × WithTop ℚ → ℕ
  | [], acc => acc.1
  | r :: rs, acc =>
    let value := t.index r col
    if value ≤ p then leavingRowGo t col p rs acc
    else
      let ratio := t.index r 0 / value
      if (ratio : WithTop ℚ) < acc.2 then
        if ratio ≤ p then r
        else leavingRowGo t col p rs (r, ratio)
      else leavingRowGo t col p rs acc

/-- The leaving-row selection of the modular `phase2` over rows `[1, height)`;
`0` when no row qualifies. -/
def leavingRow (t : Tableau) (col : ℕ) (p : ℚ) : ℕ :=
  leavingRowGo t col p (List.range' 1 (t.height - 1)) (0, ⊤)

/-- The iteration of the modular `phase2`, with the pivot budget as fuel. -/
def phase2Go (o : Options) : ℕ → List (ℕ × ℕ) → Tableau → SimplexRes × Tableau
  | 0, _, t => (.cycled, t)
  | fuel + 1, history, t =>
    let col := enteringCol t o.precision
    if col = 0 then (.optimal (roundToPrecision (t.index 0 0) o.precision), t)
    else
      let row := leavingRow t col o.precision
      if row = 0 then (.unbounded col, t)
      else if o.checkCycles then
        let ch := hasCycle 6 history t row col
        if ch.1 then (.cycled, t) else phase2Go o fuel ch.2 (pivot t row col)
      else phase2Go o fuel history (pivot t row col)

/-- `phase2` from the modular simplex source: optimise a basic feasible
solution.  The evolved tableau is returned alongside the status because the
source mutates it in place. -/
def phase2 (t : Tableau) (o : Options) : SimplexRes × Tableau :=
  phase2Go o o.maxPivots [] t

/-- The leaving-row selection of `phase1`: the row of the most negative RHS
strictly below `-precision`; `0` when none. -/
def phase1Row (t : Tableau) (p : ℚ) : ℕ :=
  ((List.range' 1 (t.height - 1)).foldl
    (fun (acc : ℕ × ℚ) r => if t.index r 0 < acc.2 then (r, t.index r 0) else acc)
    (0, -p)).1

/-- The entering-column selection of `phase1`: among columns with coefficient
below `-precision`, the first attaining the maximum of `-M[0,c] / M[row,c]`;
`0` when none. -/
def phase1Col (t : Tableau) (row : ℕ) (p : ℚ) : ℕ :=
  ((List.range' 1 (t.width - 1)).foldl
    (fun (acc : ℕ × WithBot ℚ) c =>
      let coefficient := t.index row c
      if coefficient < -p then
        let ratio := -(t.index 0 c) / coefficient
        if acc.2 < (ratio : WithBot ℚ) then (c, (ratio : WithBot ℚ)) else acc
      else acc)
    (0, ⊥)).1

/-- The iteration of the modular `phase1`, with the pivot budget as fuel. -/
def phase1Go (o : Options) : ℕ → List (ℕ × ℕ) → Tableau → SimplexRes × Tableau
  | 0, _, t => (.cycled, t)
  | fuel + 1, history, t =>
    let row := phase1Row t o.precision
    if row = 0 then phase2 t o
    else
      let col := phase1Col t row o.precision
      if col = 0 then (.infeasible, t)
      else if o.checkCycles then
        let ch := hasCycle 6 history t row col
        if ch.1 then (.cycled, t) else phase1Go o fuel ch.2 (pivot t row col)
      else phase1Go o fuel history (pivot t row col)

/-- `phase1` from the modular simplex source: drive the tableau to a basic
feasible solution, then run `phase2`.  Exported as `simplex` by the source. -/
def phase1 (t : Tableau) (o : Options) : SimplexRes × Tableau :=
  phase1Go o o.maxPivots [] t

/-- Alias matching `export { phase1 as simplex }`. -/
def simplex (t : Tableau) (o : Options) : SimplexRes × Tableau := phase1 t o

/-- A branching cut `(sign, variable, value)`: `sign = +1` means
`variable ≤ value`, `sign = -1` means `variable ≥ value`. -/
abbrev Cut : Type := ℚ × ℕ × ℚ

/-- A queued branch: the LP bound of its parent and its cut list. -/
abbrev Branch : Type := ℚ × List Cut

/-- Modelled from the spec: the external `heap` npm dependency is "a standard
min-heap keyed by LP bound" (a port of CPython's `heapq`); this is its
`_siftdown` inner loop.  `newitem` moves towards the root past larger keys. -/
def siftdownLoop (newitem : Branch) (startpos : ℕ) :
    ℕ → List Branch → ℕ → List Branch
  | 0, arr, pos => arr.set pos newitem
  | fuel + 1, arr, pos =>
    if pos > startpos then
      let parentpos := (pos - 1) / 2
      let parent := arr.getD parentpos (0, [])
      if newitem.1 < parent.1 then
        siftdownLoop newitem startpos fuel (arr.set pos parent) parentpos
      else arr.set pos newitem
    else arr.set pos newitem

/-- Modelled from the spec: `heapq`'s `_siftup` descent loop — walk down the
smaller-child path to a leaf, returning the array and the final hole. -/
def siftupLoop (endpos : ℕ) : ℕ → List Branch → ℕ → List Branch × ℕ
  | 0, arr, pos => (arr, pos)
  | fuel + 1, arr, pos =>
    let childpos := 2 * pos + 1
    if childpos < endpos then
      let rightpos := childpos + 1
      let childpos :=
        if rightpos < endpos ∧ ¬((arr.getD childpos (0, [])).1 < (arr.getD rightpos (0, [])).1)
        then rightpos else childpos
      siftupLoop endpos fuel (arr.set pos (arr.getD childpos (0, []))) childpos
    else (arr, pos)

/-- Modelled from the spec: `heapq` push — append then sift down to place. -/
def heapPush (arr : List Branch) (item : Branch) : List Branch :=
  let arr := arr ++ [item]
  siftdownLoop item 0 arr.length arr (arr.length - 1)

/-- Modelled from the spec: `heapq` pop — remove the last element, move it to
the root and sift up; `none` on an empty heap. -/
def heapPop (arr : List Branch) : Option (Branch × List Branch) :=
  if arr.length = 0 then none
  else
    let lastelt := arr.getD (arr.length - 1) (0, [])
    let arr := arr.dropLast
    if arr.length > 0 then
      let returnitem := arr.getD 0 (0, [])
      let arr := arr.set 0 lastelt
      let newitem := arr.getD 0 (0, [])
      let r := siftupLoop arr.length arr.length arr 0
      some (returnitem, siftdownLoop newitem 0 (r.2 + 1) (r.1.set r.2 newitem) r.2)
    else some (lastelt, arr)

/-- One of the two reusable scratch buffers of `branchAndCut` (`Buffer` in
`src/branchAndCut.ts`): a pre-sized matrix and the two pre-sized maps. -/
structure Buffer where
  bm : ℕ → ℕ → ℚ
  bp : List ℕ
  bv : List ℕ

/-- A freshly allocated zero buffer (`buffer(matrixLength, posVarLength)`). -/
def mkBuffer (posVarLength : ℕ) : Buffer :=
  { bm := fun _ _ => 0
    bp := List.replicate posVarLength 0
    bv := List.replicate posVarLength 0 }

/-- `TypedArray.set(src)` on a map array: overwrite the leading
`src.length` entries, keep the rest. -/
def typedSet (dst src : List ℕ) : List ℕ := src ++ dst.drop src.length

/-- The contents of the cut row appended for one cut, exactly as written by
`applyCuts`: for a non-basic variable the row is `sign·value, 0, …, sign at
column pos`; for a basic one it is `sign·(value − RHS)` and `−sign·M[row, c]`,
reading the freshly copied root rows. -/
def cutRow (t : Tableau) (cut : Cut) (c : ℕ) : ℚ :=
  let pos := t.positionOfVariable.getD cut.2.1 0
  if pos < t.width then
    if c = pos then cut.1 else if c = 0 then cut.1 * cut.2.2 else 0
  else
    let row := pos - t.width
    if c = 0 then cut.1 * (cut.2.2 - t.index row 0) else -cut.1 * t.index row c

/-- `applyCuts` from `src/branchAndCut.ts`: copy the root tableau into the
buffer, append one row per cut, extend the position maps with identity tail
entries, and return the buffer contents together with the tableau view
(`subarray`) of the written region. -/
def applyCuts (t : Tableau) (buf : Buffer) (cuts : List Cut) : Buffer × Tableau :=
  let n := cuts.length
  let bm : ℕ → ℕ → ℚ := fun r c =>
    if r < t.height ∧ c < t.width then t.index r c
    else if t.height ≤ r ∧ r - t.height < n ∧ c < t.width then
      cutRow t (cuts.getD (r - t.height) (0, 0, 0)) c
    else buf.bm r c
  let len := t.width + t.height + n
  let bp := (List.range' (t.width + t.height) n).foldl (fun l i => l.set i i)
    (typedSet buf.bp t.positionOfVariable)
  let bv := (List.range' (t.width + t.height) n).foldl (fun l i => l.set i i)
    (typedSet buf.bv t.variableAtPosition)
  ({ bm := bm, bp := bp, bv := bv },
   { matrix := bm
     width := t.width
     height := t.height + n
     positionOfVariable := bp.take len
     variableAtPosition := bv.take len })

/-- `mostFractionalVar`: among the integer-marked variables that are basic,
the one whose value has the largest fractional part `|val − round(val)|`,
with its value and that fraction; `(0, 0, 0)` when none beats fraction `0`. -/
def mostFractionalVar (t : Tableau) (intVars : List ℕ) : ℕ × ℚ × ℚ :=
  intVars.foldl
    (fun (acc : ℕ × ℚ × ℚ) v =>
      let pos := t.positionOfVariable.getD v 0
      if pos < t.width then acc
      else
        let val := t.index (pos - t.width) 0
        let frac := |val - (jsRound val : ℤ)|
        if frac > acc.2.2 then (v, val, frac) else acc)
    (0, 0, 0)

/-- The loop state of `branchAndCut` (`src/branchAndCut.ts`): the root
tableau, the two scratch buffers in their current roles, the branch queue and
the incumbent data, plus the cooperative-timeout bookkeeping. -/
structure BCState where
  root : Tableau
  candBuf : Buffer
  solBuf : Buffer
  queue : List Branch
  bestEval : WithTop ℚ
  bestT : Tableau
  found : Bool
  timedout : Bool
  iter : ℕ
  clkIdx : ℕ

/-- The loop guard of `branchAndCut`:
`iter < maxIterations && !branches.empty() && bestEval >= optimalThreshold && !timedout`. -/
def bcGuard (o : Options) (threshold : ℚ) (s : BCState) : Prop :=
  s.iter < o.maxIterations ∧ s.queue.length ≠ 0 ∧
    (threshold : WithTop ℚ) ≤ s.bestEval ∧ s.timedout = false

instance (o : Options) (threshold : ℚ) (s : BCState) : Decidable (bcGuard o threshold s) := by
  unfold bcGuard; infer_instance

/-- One iteration of the `branchAndCut` loop body.  The second component is
`false` exactly when the body executed `break` (a popped branch whose LP bound
is worse than the incumbent).  All writes go to the candidate buffer, the
queue and the incumbent bookkeeping; the root tableau is only read. -/
def bcStep (o : Options) (ints : List ℕ) (clk : ℕ → ℚ) (stopTime : WithTop ℚ)
    (s : BCState) : BCState × Bool :=
  match heapPop s.queue with
  | none => (s, false)
  | some ((relaxedEval, cuts), queue') =>
    if s.bestEval < (relaxedEval : WithTop ℚ) then ({ s with queue := queue' }, false)
    else
      let ac := applyCuts s.root s.candBuf cuts
      let run := simplex ac.2 o
      let candT := run.2
      let buf : Buffer :=
        { bm := fun r c => if r < candT.height ∧ c < candT.width then candT.matrix r c
                           else (ac.1).bm r c
          bp := typedSet (ac.1).bp candT.positionOfVariable
          bv := typedSet (ac.1).bv candT.variableAtPosition }
      let s := { s with queue := queue', candBuf := buf }
      let s :=
        match run.1 with
        | .optimal result =>
          if (result : WithTop ℚ) < s.bestEval then
            let mf := mostFractionalVar candT ints
            if mf.2.2 ≤ o.precision then
              { s with found := true, bestEval := (result : WithTop ℚ), bestT := candT,
                       candBuf := s.solBuf, solBuf := s.candBuf }
            else
              let part := cuts.foldl
                (fun (ul : List Cut × List Cut) (cut : Cut) =>
                  if cut.2.1 = mf.1 then
                    if cut.1 < 0 then (ul.1, ul.2 ++ [cut]) else (ul.1 ++ [cut], ul.2)
                  else (ul.1 ++ [cut], ul.2 ++ [cut]))
                ([], [])
              let cutsUpper := part.1 ++ [(-1, mf.1, (⌈mf.2.1⌉ : ℚ))]
              let cutsLower := part.2 ++ [(1, mf.1, (⌊mf.2.1⌋ : ℚ))]
              { s with queue := heapPush (heapPush s.queue (result, cutsUpper)) (result, cutsLower) }
          else s
        | _ => s
      ({ s with timedout := decide (stopTime ≤ (clk s.clkIdx : WithTop ℚ)),
                clkIdx := s.clkIdx + 1, iter := s.iter + 1 }, true)

/-- The `while` loop of `branchAndCut`, driven by fuel; the fuel never runs
out because `iter` increases at every continuing step. -/
def bcLoop (o : Options) (threshold : ℚ) (ints : List ℕ) (clk : ℕ → ℚ)
    (stopTime : WithTop ℚ) : ℕ → BCState → BCState
  | 0, s => s
  | fuel + 1, s =>
    if bcGuard o threshold s then
      let r := bcStep o ints clk stopTime s
      if r.2 then bcLoop o threshold ints clk stopTime fuel r.1 else r.1
    else s

/-- The final state of the `branchAndCut` loop for the given inputs. -/
def bcFinal {V C : Type} (tm : TableauModel V C) (initResult : ℚ) (o : Options)
    (clk : ℕ → ℚ) : BCState :=
  let t := tm.tableau
  let mf := mostFractionalVar t tm.integers
  let q := heapPush (heapPush [] (initResult, [(-1, mf.1, (⌈mf.2.1⌉ : ℚ))]))
    (initResult, [(1, mf.1, (⌊mf.2.1⌋ : ℚ))])
  let posVarLength := t.positionOfVariable.length + tm.integers.length * 2
  let threshold := initResult * (1 - tm.sign * o.tolerance)
  let stopTime := o.timeout + (clk 0 : WithTop ℚ)
  let s0 : BCState :=
    { root := t, candBuf := mkBuffer posVarLength, solBuf := mkBuffer posVarLength,
      queue := q, bestEval := ⊤, bestT := t, found := false,
      timedout := decide (stopTime ≤ (clk 1 : WithTop ℚ)), iter := 0, clkIdx := 2 }
  bcLoop o threshold tm.integers clk stopTime (o.maxIterations + 1) s0

/-- The `unfinished` condition computed after the loop of `branchAndCut`:
`(timedout || iter >= maxIterations) && !branches.empty() && bestEval >= optimalThreshold`. -/
def bcUnfinished {V C : Type} (tm : TableauModel V C) (initResult : ℚ) (o : Options)
    (clk : ℕ → ℚ) : Prop :=
  ((bcFinal tm initResult o clk).timedout = true ∨
      o.maxIterations ≤ (bcFinal tm initResult o clk).iter) ∧
    (bcFinal tm initResult o clk).queue.length ≠ 0 ∧
    ((initResult * (1 - tm.sign * o.tolerance) : ℚ) : WithTop ℚ) ≤
      (bcFinal tm initResult o clk).bestEval

instance {V C : Type} (tm : TableauModel V C) (initResult : ℚ) (o : Options)
    (clk : ℕ → ℚ) : Decidable (bcUnfinished tm initResult o clk) := by
  unfold bcUnfinished; infer_instance

/-- `branchAndCut` from `src/branchAndCut.ts`.  The companion number is the
best integer objective when one was found and `NaN` (`none`) otherwise. -/
def branchAndCut {V C : Type} (tm : TableauModel V C) (initResult : ℚ)
    (o : Options) (clk : ℕ → ℚ) : TableauModel V C × SolutionStatus × Option ℚ :=
  if (mostFractionalVar tm.tableau tm.integers).2.2 ≤ o.precision then
    (tm, .optimal, some initResult)
  else
    ({ tm with tableau := (bcFinal tm initResult o clk).bestT },
     if bcUnfinished tm initResult o clk then .timedout
     else if ¬(bcFinal tm initResult o clk).found = true then .infeasible
     else .optimal,
     if (bcFinal tm initResult o clk).found = true
     then some ((bcFinal tm initResult o clk).bestEval.untop' 0) else none)

/-- A JavaScript number in a solution slot: `NaN`, `±Infinity`, or a finite
value. -/
inductive JSNum where
  | nan
  | inf
  | ninf
  | num (q : ℚ)
deriving DecidableEq, Repr

/-- The finite value of a `JSNum` (callers only use it where finite). -/
def JSNum.toQ : JSNum → ℚ
  | .num q => q
  | _ => 0

/-- A `JSNum` used as an array index (the `unbounded` branch of `solution`
indexes `variableAtPosition` with the returned column number). -/
def JSNum.asIndex : JSNum → ℕ
  | .num q => q.floor.toNat
  | _ => 0

/-- The solution object returned by the solver. -/
structure YSolution (V : Type) where
  status : SolutionStatus
  result : JSNum
  vars : List (V × JSNum)
deriving DecidableEq

namespace Y
/-! ### The older single-file `YALPS.ts` solver

This namespace models the monolithic `src/YALPS.ts` variant.  Its `pivot`,
`phase1`, `applyCuts`, `mostFractionalVar` and tableau construction coincide
with the modular files modelled above (the construction differs only in that
the direction string is validated: `'maximize'`, `'minimize'` or absent, and
anything else throws), so those definitions are shared; its `hasCycle`
(minimum cycle length 1), `phase2` (different leaving-row rule), `solution`,
`branchAndCut` (different final-status rule) and the throwing `solve` /
`tableauModel` entry points are modelled here. -/

/-- The leaving-row scan of the older `phase2`: rows with `|M[r,col]| ≤
precision` are skipped; a row with `|RHS| ≤ precision` and positive pivot
entry is taken immediately; otherwise the smallest ratio in
`(precision, minRatio)` wins. -/
def leavingRowGo (t : Tableau) (col : ℕ) (p : ℚ) :
    List ℕ → ℕ × WithTop ℚ → ℕ
  | [], acc => acc.1
  | r :: rs, acc =>
    let value := t.index r col
    if |value| ≤ p then leavingRowGo t col p rs acc
    else
      let rhs := t.index r 0
      if |rhs| ≤ p ∧ 0 < value then r
      else
        let ratio := rhs / value
        if p < ratio ∧ (ratio : WithTop ℚ) < acc.2 then leavingRowGo t col p rs (r, ratio)
        else leavingRowGo t col p rs acc

/-- The leaving-row selection of the older `phase2`; `0` when no row is
chosen. -/
def leavingRow (t : Tableau) (col : ℕ) (p : ℚ) : ℕ :=
  leavingRowGo t col p (List.range' 1 (t.height - 1)) (0, ⊤)

/-- The iteration of the older `phase2`: same entering rule as the modular
one, the older leaving-row rule, and cycle detection from length 1. -/
def phase2Go (o : Options) : ℕ → List (ℕ × ℕ) → Tableau → SimplexRes × Tableau
  | 0, _, t => (.cycled, t)
  | fuel + 1, history, t =>
    let col := enteringCol t o.precision
    if col = 0 then (.optimal (roundToPrecision (t.index 0 0) o.precision), t)
    else
      let row := leavingRow t col o.precision
      if row = 0 then (.unbounded col, t)
      else if o.checkCycles then
        let ch := hasCycle 1 history t row col
        if ch.1 then (.cycled, t) else phase2Go o fuel ch.2 (pivot t row col)
      else phase2Go o fuel history (pivot t row col)

/-- The older `phase2`. -/
def phase2 (t : Tableau) (o : Options) : SimplexRes × Tableau :=
  phase2Go o o.maxPivots [] t

/-- The iteration of the older `phase1` (identical to the modular one except
that it enters the older `phase2` and checks cycles from length 1). -/
def phase1Go (o : Options) : ℕ → List (ℕ × ℕ) → Tableau → SimplexRes × Tableau
  | 0, _, t => (.cycled, t)
  | fuel + 1, history, t =>
    let row := phase1Row t o.precision
    if row = 0 then phase2 t o
    else
      let col := phase1Col t row o.precision
      if col = 0 then (.infeasible, t)
      else if o.checkCycles then
        let ch := hasCycle 1 history t row col
        if ch.1 then (.cycled, t) else phase1Go o fuel ch.2 (pivot t row col)
      else phase1Go o fuel history (pivot t row col)

/-- The older `phase1`. -/
def phase1 (t : Tableau) (o : Options) : SimplexRes × Tableau :=
  phase1Go o o.maxPivots [] t

/-- `solution` from `YALPS.ts`: build the returned solution object from the
final tableau, status and companion number. -/
def solution {V C : Type} (tm : TableauModel V C) (status : SolutionStatus)
    (result : JSNum) (precision : ℚ) : YSolution V :=
  if status = .optimal ∨ (status = .timedout ∧ result ≠ .nan) then
    let r := result.toQ
    let vars := tm.vars.enum.foldl
      (fun (acc : List (V × JSNum)) e =>
        let pos := tm.tableau.positionOfVariable.getD (e.1 + 1) 0
        if pos < tm.tableau.width then acc
        else
          let value := tm.tableau.index (pos - tm.tableau.width) 0
          if value > precision then
            acc ++ [(e.2.1, .num (roundToPrecision value precision))]
          else acc)
      []
    { status := status, result := .num (-tm.sign * r), vars := vars }
  else if status = .unbounded then
    let v := tm.tableau.variableAtPosition.getD result.asIndex 0
    { status := .unbounded
      result := if tm.sign < 0 then .ninf else .inf
      vars :=
        if 1 ≤ v then
          match tm.vars.get? (v - 1) with
          | some kv => [(kv.1, .inf)]
          | none => []
        else [] }
  else { status := status, result := .nan, vars := [] }

/-- The loop state of the older `branchAndCut`: two buffers selected by the
`currentBuffer` toggle, and the incumbent status instead of a flag. -/
structure BCState where
  root : Tableau
  bufA : Buffer
  bufB : Buffer
  current : Bool
  queue : List Branch
  bestEval : WithTop ℚ
  bestT : Tableau
  bestStatus : SolutionStatus
  timedout : Bool
  iter : ℕ
  clkIdx : ℕ

/-- The loop guard of the older `branchAndCut`. -/
def bcGuard (o : Options) (threshold : ℚ) (s : BCState) : Prop :=
  s.iter < o.maxIterations ∧ s.queue.length ≠ 0 ∧
    (threshold : WithTop ℚ) ≤ s.bestEval ∧ s.timedout = false

instance (o : Options) (threshold : ℚ) (s : BCState) : Decidable (bcGuard o threshold s) := by
  unfold bcGuard; infer_instance

/-- One iteration of the older `branchAndCut` loop body; second component
`false` on `break`. -/
def bcStep (o : Options) (ints : List ℕ) (clk : ℕ → ℚ) (stopTime : WithTop ℚ)
    (s : BCState) : BCState × Bool :=
  match heapPop s.queue with
  | none => (s, false)
  | some ((relaxedEval, cuts), queue') =>
    if s.bestEval < (relaxedEval : WithTop ℚ) then ({ s with queue := queue' }, false)
    else
      let chosen := if s.current then s.bufA else s.bufB
      let ac := applyCuts s.root chosen cuts
      let run := phase1 ac.2 o
      let candT := run.2
      let buf : Buffer :=
        { bm := fun r c => if r < candT.height ∧ c < candT.width then candT.matrix r c
                           else (ac.1).bm r c
          bp := typedSet (ac.1).bp candT.positionOfVariable
          bv := typedSet (ac.1).bv candT.variableAtPosition }
      let s := { s with queue := queue',
                        bufA := if s.current then buf else s.bufA,
                        bufB := if s.current then s.bufB else buf }
      let s :=
        match run.1 with
        | .optimal result =>
          if (result : WithTop ℚ) < s.bestEval then
            let mf := mostFractionalVar candT ints
            if mf.2.2 ≤ o.precision then
              { s with bestStatus := .optimal, bestEval := (result : WithTop ℚ),
                       bestT := candT, current := !s.current }
            else
              let part := cuts.foldl
                (fun (ul : List Cut × List Cut) (cut : Cut) =>
                  if cut.2.1 = mf.1 then
                    if cut.1 < 0 then (ul.1, ul.2 ++ [cut]) else (ul.1 ++ [cut], ul.2)
                  else (ul.1 ++ [cut], ul.2 ++ [cut]))
                ([], [])
              let cutsUpper := part.1 ++ [(-1, mf.1, (⌈mf.2.1⌉ : ℚ))]
              let cutsLower := part.2 ++ [(1, mf.1, (⌊mf.2.1⌋ : ℚ))]
              { s with queue := heapPush (heapPush s.queue (result, cutsUpper)) (result, cutsLower) }
          else s
        | _ => s
      ({ s with timedout := decide (stopTime ≤ (clk s.clkIdx : WithTop ℚ)),
                clkIdx := s.clkIdx + 1, iter := s.iter + 1 }, true)

/-- The `while` loop of the older `branchAndCut`. -/
def bcLoop (o : Options) (threshold : ℚ) (ints : List ℕ) (clk : ℕ → ℚ)
    (stopTime : WithTop ℚ) : ℕ → BCState → BCState
  | 0, s => s
  | fuel + 1, s =>
    if bcGuard o threshold s then
      let r := bcStep o ints clk stopTime s
      if r.2 then bcLoop o threshold ints clk stopTime fuel r.1 else r.1
    else s

/-- The final loop state of the older `branchAndCut`. -/
def bcFinal {V C : Type} (tm : TableauModel V C) (initResult : ℚ) (o : Options)
    (clk : ℕ → ℚ) : BCState :=
  let t := tm.tableau
  let mf := mostFractionalVar t tm.integers
  let q := heapPush (heapPush [] (initResult, [(-1, mf.1, (⌈mf.2.1⌉ : ℚ))]))
    (initResult, [(1, mf.1, (⌊mf.2.1⌋ : ℚ))])
  let posVarLength := t.positionOfVariable.length + tm.integers.length * 2
  let threshold := initResult * (1 - tm.sign * o.tolerance)
  let stopTime := o.timeout + (clk 0 : WithTop ℚ)
  let s0 : BCState :=
    { root := t, bufA := mkBuffer posVarLength, bufB := mkBuffer posVarLength,
      current := true, queue := q, bestEval := ⊤, bestT := t, bestStatus := .infeasible,
      timedout := decide (stopTime ≤ (clk 1 : WithTop ℚ)), iter := 0, clkIdx := 2 }
  bcLoop o threshold tm.integers clk stopTime (o.maxIterations + 1) s0

/-- The older `branchAndCut`: note the final-status computation
`unfinished = !empty && bestEval < optimalThreshold && (timedout || iter === maxIterations)`
differs from the modular file. -/
def branchAndCut {V C : Type} (tm : TableauModel V C) (initResult : ℚ)
    (o : Options) (clk : ℕ → ℚ) : YSolution V :=
  let mf := mostFractionalVar tm.tableau tm.integers
  if mf.2.2 ≤ o.precision then solution tm .optimal (.num initResult) o.precision
  else
    let threshold := initResult * (1 - tm.sign * o.tolerance)
    let F := bcFinal tm initResult o clk
    let unfinished :=
      F.queue.length ≠ 0 ∧ F.bestEval < (threshold : WithTop ℚ) ∧
        (F.timedout = true ∨ F.iter = o.maxIterations)
    solution { tm with tableau := F.bestT }
      (if unfinished then .timedout else F.bestStatus)
      (if F.bestStatus = .infeasible then .nan else .num (F.bestEval.untop' 0))
      o.precision

/-- The older `tableauModel` entry point: it validates the direction string
and throws on anything other than `'maximize'`, `'minimize'` or absent.  For
the valid directions its construction body coincides with the modular
builder modelled by `tableauModel` above (the only other textual difference,
the `hasObjective` guard, is the `Option`-semantics of the objective key,
which the shared builder already has), so the success case reuses it. -/
def tableauModelE {V C : Type} [DecidableEq V] [DecidableEq C] (m : Model V C) :
    Except String (TableauModel V C) :=
  if m.direction = none ∨ m.direction = some "maximize" ∨ m.direction = some "minimize"
  then .ok (tableauModel m)
  else .error "not a valid optimization direction"

/-- `solve` from `YALPS.ts`: build the tableau (throwing on invalid input),
run the two-phase simplex, then either read the solution back directly or run
branch-and-cut for integer problems whose relaxation is optimal. -/
def solve {V C : Type} [DecidableEq V] [DecidableEq C] (m : Model V C)
    (o : Options) (clk : ℕ → ℚ) : Except String (YSolution V) :=
  match tableauModelE m with
  | .error e => .error e
  | .ok tabmod =>
    let run := phase1 tabmod.tableau o
    let tabmod := { tabmod with tableau := run.2 }
    let payload : SolutionStatus × JSNum :=
      match run.1 with
      | .optimal result => (.optimal, .num result)
      | .infeasible => (.infeasible, .nan)
      | .unbounded col => (.unbounded, .num col)
      | .cycled => (.cycled, .nan)
    if tabmod.integers.length = 0 then
      .ok (solution tabmod payload.1 payload.2 o.precision)
    else
      match run.1 with
      | .optimal result => .ok (branchAndCut tabmod result o clk)
      | _ => .ok (solution tabmod payload.1 payload.2 o.precision)

end Y

/-- Transcription of claim C1's leaving-row rule: among rows with
`M[r, col] > precision`, take immediately any qualifying row whose *RHS* is at
most `precision`; otherwise pick the smallest *positive* ratio, ties broken by
first index. -/
def claimLeavingRowGo (t : Tableau) (col : ℕ) (p : ℚ) :
    List ℕ → ℕ × WithTop ℚ → ℕ
  | [], acc => acc.1
  | r :: rs, acc =>
    let value := t.index r col
    if value ≤ p then claimLeavingRowGo t col p rs acc
    else if t.index r 0 ≤ p then r
    else
      let ratio := t.index r 0 / value
      if 0 < ratio ∧ (ratio : WithTop ℚ) < acc.2 then claimLeavingRowGo t col p rs (r, ratio)
      else claimLeavingRowGo t col p rs acc

/-- Claim C1's leaving-row selection over rows `[1, height)`. -/
def claimLeavingRow (t : Tableau) (col : ℕ) (p : ℚ) : ℕ :=
  claimLeavingRowGo t col p (List.range' 1 (t.height - 1)) (0, ⊤)

/-- Claim C1's entering-column rule, stated declaratively: among columns
`c ∈ [1, width)` with reduced cost above `precision`, the first one attaining
the maximum reduced cost (`0` when none qualifies). -/
def claimEnteringCol (t : Tableau) (p : ℚ) : ℕ :=
  let qual := (List.range' 1 (t.width - 1)).filter fun c => p < t.index 0 c
  if qual = [] then 0 else (qual.argmax fun c => t.index 0 c).getD 0

/-- `phase2` as claim C1 describes it: the same iteration, optimal/unbounded
reporting and cycle checking as the source, with the selection rules replaced
by the claim's. -/
def claimPhase2Go (o : Options) : ℕ → List (ℕ × ℕ) → Tableau → SimplexRes × Tableau
  | 0, _, t => (.cycled, t)
  | fuel + 1, history, t =>
    let col := claimEnteringCol t o.precision
    if col = 0 then (.optimal (roundToPrecision (t.index 0 0) o.precision), t)
    else
      let row := claimLeavingRow t col o.precision
      if row = 0 then (.unbounded col, t)
      else if o.checkCycles then
        let ch := hasCycle 6 history t row col
        if ch.1 then (.cycled, t) else claimPhase2Go o fuel ch.2 (pivot t row col)
      else claimPhase2Go o fuel history (pivot t row col)

/-- The claimed `phase2`. -/
def claimPhase2 (t : Tableau) (o : Options) : SimplexRes × Tableau :=
  claimPhase2Go o o.maxPivots [] t

/-- The amended leaving-row rule, stated declaratively: among the qualifying
rows (`M[r, col] > precision`), the first one whose *ratio* is at most
`precision` if there is one, and otherwise the first row attaining the
smallest ratio (not necessarily positive); `0` when no row qualifies. -/
def amendedLeavingRow (t : Tableau) (col : ℕ) (p : ℚ) : ℕ :=
  let qual := (List.range' 1 (t.height - 1)).filter fun r => p < t.index r col
  match qual.find? (fun r => t.index r 0 / t.index r col ≤ p) with
  | some r => r
  | none => (qual.argmin (fun r => t.index r 0 / t.index r col)).getD 0

/-- `phase2` as amended: the claim's description with the early exit taken on
small *ratio* rather than small RHS, and the minimum taken over all ratios. -/
def amendedPhase2Go (o : Options) : ℕ → List (ℕ × ℕ) → Tableau → SimplexRes × Tableau
  | 0, _, t => (.cycled, t)
  | fuel + 1, history, t =>
    let col := claimEnteringCol t o.precision
    if col = 0 then (.optimal (roundToPrecision (t.index 0 0) o.precision), t)
    else
      let row := amendedLeavingRow t col o.precision
      if row = 0 then (.unbounded col, t)
      else if o.checkCycles then
        let ch := hasCycle 6 history t row col
        if ch.1 then (.cycled, t) else amendedPhase2Go o fuel ch.2 (pivot t row col)
      else amendedPhase2Go o fuel history (pivot t row col)

/-- The amended `phase2`. -/
def amendedPhase2 (t : Tableau) (o : Options) : SimplexRes × Tableau :=
  amendedPhase2Go o o.maxPivots [] t

/-- The concrete tableau refuting claim C1's leaving-row description: with
`precision = 1/10`, row 1 qualifies with RHS `1/10 ≤ precision` but ratio
`1/5`, while row 2 has the strictly smaller ratio `1/50`. -/
def c1Tableau : Tableau :=
  { matrix := fun r c =>
      if r = 0 ∧ c = 1 then 1
      else if r = 1 ∧ c = 0 then 1 / 10
      else if r = 1 ∧ c = 1 then 1 / 2
      else if r = 2 ∧ c = 0 then 1 / 50
      else if r = 2 ∧ c = 1 then 1
      else 0
    width := 2, height := 3
    positionOfVariable := [0, 1, 2, 3, 4]
    variableAtPosition := [0, 1, 2, 3, 4] }

/-- Options used by the concrete C1 counterexample (`precision = 1/10`). -/
def c1Options : Options :=
  { precision := 1 / 10, checkCycles := false, maxPivots := 2,
    tolerance := 0, timeout := ⊤, maxIterations := 2, includeZeroVariables := false }

/-- Transcription of claim C2's final-status rule, applied to the final loop
state: `optimal` if an incumbent was found and the loop exited without
exhausting the wall-clock or iteration budget; `timedout` if the budget was
reached while the queue was still non-empty and no incumbent within the
tolerance threshold existed (carrying the best incumbent's objective, or NaN
if none); otherwise `infeasible` with result NaN. -/
def c2ClaimVerdict (o : Options) (threshold : ℚ) (F : BCState) :
    SolutionStatus × Option ℚ :=
  if F.found = true ∧ ¬(F.timedout = true ∨ o.maxIterations ≤ F.iter) then
    (.optimal, some (F.bestEval.untop' 0))
  else if (F.timedout = true ∨ o.maxIterations ≤ F.iter) ∧ F.queue.length ≠ 0 ∧
      (threshold : WithTop ℚ) ≤ F.bestEval then
    (.timedout, if F.found = true then some (F.bestEval.untop' 0) else none)
  else (.infeasible, none)

/-- The root tableau of the C2 counterexample: `maximize x` subject to
`2·x ≤ 3` after the root LP pivot (`x` basic with value `3/2`). -/
def c2Tableau : Tableau :=
  { matrix := fun r c =>
      if r = 0 ∧ c = 0 then -3/2
      else if r = 0 ∧ c = 1 then -1/2
      else if r = 1 ∧ c = 0 then 3/2
      else if r = 1 ∧ c = 1 then 1/2
      else 0
    width := 2, height := 2
    positionOfVariable := [0, 3, 2, 1]
    variableAtPosition := [0, 3, 2, 1] }

/-- The C2 counterexample tableau model: one integer variable at column 1. -/
def c2Tm : TableauModel ℕ ℕ :=
  { tableau := c2Tableau, sign := 1, vars := [(0, [(0, 2), (1, 1)])], integers := [1] }

/-- Options for the C2 counterexample: the iteration cap `2` is reached on
exactly the iteration that both empties the queue and finds the incumbent. -/
def c2Options : Options :=
  { precision := 1/10, checkCycles := false, maxPivots := 8,
    tolerance := 0, timeout := ⊤, maxIterations := 2, includeZeroVariables := false }

/-- The bijection invariant of the two position maps: both have length
`width + height`, take values below `width + height`, and are mutually
inverse. -/
def MapsInv (t : Tableau) : Prop :=
  t.positionOfVariable.length = t.width + t.height ∧
  t.variableAtPosition.length = t.width + t.height ∧
  (∀ i, i < t.width + t.height → t.positionOfVariable.getD i 0 < t.width + t.height) ∧
  (∀ i, i < t.width + t.height → t.variableAtPosition.getD i 0 < t.width + t.height) ∧
  (∀ i, i < t.width + t.height →
    t.positionOfVariable.getD (t.variableAtPosition.getD i 0) 0 = i) ∧
  (∀ i, i < t.width + t.height →
    t.variableAtPosition.getD (t.positionOfVariable.getD i 0) 0 = i)

instance (t : Tableau) : Decidable (MapsInv t) := by
  unfold MapsInv; infer_instance

/-- Shape of a tableau: everything except the matrix contents. -/
def SameShape (t t' : Tableau) : Prop :=
  t'.width = t.width ∧ t'.height = t.height ∧
  t'.positionOfVariable = t.positionOfVariable ∧
  t'.variableAtPosition = t.variableAtPosition

/-- A concrete two-variable model whose key `5` is binary. -/
def c8m : Model ℕ ℕ :=
  { objective := some 0
    constraints := [(0, { max := some 4 })]
    vars := [(5, [(0, 1)]), (7, [(0, 2)])]
    binaries := some (Sum.inr [5]) }

/-- The C10 model: `maximize x` subject to `2·x ≤ 3` with `x` integer, so the
root relaxation `x = 3/2` is fractional and branch-and-cut must iterate. -/
def mC10 : Model ℕ ℕ :=
  { objective := some 0
    constraints := [(1, { max := some 3 })]
    vars := [(5, [(0, 1), (1, 2)])]
    integers := some (Sum.inr [5]) }

/-- Options with a finite `timeout` of 1000 ms. -/
def oC10 : Options :=
  { precision := 1/10, checkCycles := false, maxPivots := 16,
    tolerance := 0, timeout := (1000 : ℚ), maxIterations := 32,
    includeZeroVariables := false }

/-- A fast machine: every `Date.now()` read advances the clock by 1 ms. -/
def c10ClkFast : ℕ → ℚ := fun i => (i : ℚ)

/-- A slow machine: every `Date.now()` read advances the clock by 1000 ms. -/
def c10ClkSlow : ℕ → ℚ := fun i => 10000 + 1000 * (i : ℚ)

/-- View of a finite-or-`-Infinity` lower bound as an optional field value. -/
def botToOption : WithBot ℚ → Option ℚ := WithBot.recBotCoe none some

/-- View of a finite-or-`Infinity` upper bound as an optional field value. -/
def topToOption : WithTop ℚ → Option ℚ := WithTop.recTopCoe none some

/-- The single constraint entry described by claim C5: upper bound
`min(c1.max, c2.max)`, lower bound `max(c1.min, c2.min)`, with the `equal`
field of each entry already absorbed as `min = max = equal` (that is, the
combination acts on the effective bounds). -/
def combine (c1 c2 : Constraint) : Constraint :=
  { equal := none
    min := botToOption (max (effLower c1) (effLower c2))
    max := topToOption (min (effUpper c1) (effUpper c2)) }

/-- The per-key tightening map of `mergeStep`, abstracted over the key. -/
def pendingTighten {C : Type} [DecidableEq C] (k : C) (c2 : Constraint)
    (acc : List (C × Bounds)) : List (C × Bounds) :=
  acc.map fun kb => if kb.1 = k then (kb.1, tighten kb.2 c2) else kb

/-- The coefficient a variable's entry list gives a constraint key: each
matching `[constraint, coef]` entry overwrites the cell, so the last one
wins (`0` when the key never occurs). -/
def coefOf {C : Type} [DecidableEq C] (k : C) (entries : List (C × ℚ)) : ℚ :=
  entries.foldl (fun acc e => if e.1 = k then e.2 else acc) 0

/-- Total number of tableau rows the merged constraints occupy. -/
def sumSides {C : Type} (merged : List (C × Bounds)) : ℕ :=
  (merged.map (fun kb => kb.2.sides)).sum

/-- The row assignment as a recursion: each merged constraint gets the next
free row index, advancing by its number of sides. -/
def rowsList {C : Type} (n : ℕ) : List (C × Bounds) → List (C × ℕ × Bounds)
  | [] => []
  | kb :: rest => (kb.1, n, kb.2) :: rowsList (n + kb.2.sides) rest

/-- The binary-column list of `tableauModel` (the first component of the
variable walk). -/
def modelBinCols {V C : Type} [DecidableEq V] (m : Model V C) : List ℕ :=
  (if m.integers ≠ none ∨ m.binaries ≠ none then
    collectIntCols (convertToSet m.binaries)
      (if convertToSet m.binaries = Sum.inl true then Sum.inl true
       else convertToSet m.integers) m.vars
  else ([], [])).1

/-- The value one coefficient write of `fillEntry` leaves in the cell
`(r, c)` of a constraint occupying rows `r0, …`. -/
def cellVal (b : Bounds) (r0 r : ℕ) (v acc : ℚ) : ℚ :=
  if b.upper ≠ ⊤ then
    if b.lower ≠ ⊥ ∧ r = r0 + 1 then -v
    else if r = r0 then v else acc
  else if b.lower ≠ ⊥ then (if r = r0 then -v else acc) else acc

/-- The value the RHS write of `fillRhs` leaves in the cell `(r, 0)` of a
constraint occupying rows `r0, …`. -/
def rhsVal (b : Bounds) (r0 r : ℕ) (acc : ℚ) : ℚ :=
  if b.upper ≠ ⊤ then
    if b.lower ≠ ⊥ ∧ r = r0 + 1 then -(b.lower.unbot' 0)
    else if r = r0 then b.upper.untop' 0 else acc
  else if b.lower ≠ ⊥ then (if r = r0 then -(b.lower.unbot' 0) else acc) else acc

/-- The fill pipeline of `tableauModel`, over the assigned rows. -/
def pipeline {V C : Type} [DecidableEq C] (objective : Option C) (sign : ℚ)
    (merged : List (C × Bounds)) (binCols : List ℕ)
    (vars : List (V × List (C × ℚ))) (t0 : Tableau) : Tableau :=
  fillBinary (1 + sumSides merged) binCols
    (fillRhs (rowsList 1 merged)
      (fillCoefs objective sign (rowsList 1 merged) vars t0))

/-- A concrete model: one two-sided constraint `1 ≤ 2·x + 3·y ≤ 4` and a
binary variable `y` in column 2. -/
def c4m : Model ℕ ℕ :=
  { objective := some 0
    constraints := [(0, { min := some 1, max := some 4 })]
    vars := [(5, [(0, 2)]), (7, [(0, 3)])]
    binaries := some (Sum.inr [7]) }

/-- The C7 model: `maximize x + 16·y` subject to `x/12 + y/12 ≤ 1/2` and
`x/12 + y ≤ 1/2`, both variables integer.  Its root relaxation is optimal
(bounded), with `y = 1/2` fractional. -/
def c7m : Model ℕ ℕ :=
  { objective := some 0
    constraints := [(1, { max := some (1/2) }), (2, { max := some (1/2) })]
    vars := [(10, [(0, 1), (1, 1/12), (2, 1/12)]),
             (11, [(0, 16), (1, 1/12), (2, 1)])]
    integers := some (Sum.inl true) }

/-- Options with `precision = 1/10`: the matrix entries `1/12` sit below the
precision threshold, so the pivoting rules treat them as zero. -/
def c7o : Options :=
  { precision := 1/10, checkCycles := false, maxPivots := 32,
    tolerance := 0, timeout := ⊤, maxIterations := 6,
    includeZeroVariables := false }

/-- The root tableau after the (optimal) root simplex run. -/
def c7T : Tableau := (simplex (tableauModel c7m).tableau c7o).2

/-- The initial branch queue of `branchAndCut` for this root: the ceiling
branch `y ≥ 1` and the floor branch `y ≤ 0`, from the most fractional
variable `(2, 1/2, 1/2)`. -/
def c7q0 : List Branch :=
  heapPush (heapPush [] ((-8 : ℚ), [((-1 : ℚ), 2, (⌈(1/2 : ℚ)⌉ : ℚ))]))
    ((-8 : ℚ), [((1 : ℚ), 2, (⌊(1/2 : ℚ)⌋ : ℚ))])

/-- The initial loop state `branchAndCut` builds for this root (a clock
stuck at `0` with `timeout = Infinity` gives stop time `⊤` and an initial
`timedout` of `false`; `posVarLength = 6 + 2·2 = 10`). -/
def c7s0 : BCState :=
  { root := c7T, candBuf := mkBuffer 10, solBuf := mkBuffer 10,
    queue := c7q0, bestEval := ⊤, bestT := c7T, found := false,
    timedout := false, iter := 0, clkIdx := 2 }

/-- The loop state after the first iteration (which pops the ceiling branch
and finds it infeasible). -/
def c7s1 : BCState := (bcStep c7o (tableauModel c7m).integers (fun _ => 0) ⊤ c7s0).1

instance : DecidableEq Cut := by
  unfold Cut
  infer_instance

instance : DecidableEq Branch := by
  unfold Branch
  infer_instance


section SelectorLemmas

variable {α : Type}


/-- Folding `argAux` for a minimum from a seeded best element computes the
first minimiser of the seed-extended list. -/
theorem foldl_argAux_min (f : α → ℚ) (a : α) (l : List α) :
    l.foldl (List.argAux fun b c => f b < f c) (some a) =
      some (match l.argmin f with
            | none => a
            | some m => if f m < f a then m else a) := by
  induction l generalizing a with
  | nil => rfl
  | cons c X ih =>
    have hstep : ∀ x y : α,
        List.argAux (fun b c => f b < f c) (some x) y =
          if f y < f x then some y else some x := fun _ _ => rfl
    have hcons : (c :: X).argmin f = X.foldl (List.argAux fun b c => f b < f c) (some c) := rfl
    rw [List.foldl_cons, hstep]
    by_cases hca : f c < f a
    · rw [if_pos hca, ih c, hcons, ih c]
      rcases hX : X.argmin f with _ | m <;> simp only [hX] <;> split_ifs <;>
        first | rfl | (exfalso; linarith)
    · rw [if_neg hca, ih a, hcons, ih c]
      rcases hX : X.argmin f with _ | m <;> simp only [hX] <;> split_ifs <;>
        first | rfl | (exfalso; linarith)


/-- Folding `argAux` for a maximum from a seeded best element computes the
first maximiser of the seed-extended list. -/
theorem foldl_argAux_max (f : α → ℚ) (a : α) (l : List α) :
    l.foldl (List.argAux fun b c => f c < f b) (some a) =
      some (match l.argmax f with
            | none => a
            | some m => if f a < f m then m else a) := by
  induction l generalizing a with
  | nil => rfl
  | cons c X ih =>
    have hstep : ∀ x y : α,
        List.argAux (fun b c => f c < f b) (some x) y =
          if f x < f y then some y else some x := fun _ _ => rfl
    have hcons : (c :: X).argmax f = X.foldl (List.argAux fun b c => f c < f b) (some c) := rfl
    rw [List.foldl_cons, hstep]
    by_cases hca : f a < f c
    · rw [if_pos hca, ih c, hcons, ih c]
      rcases hX : X.argmax f with _ | m <;> simp only [hX] <;> split_ifs <;>
        first | rfl | (exfalso; linarith)
    · rw [if_neg hca, ih a, hcons, ih c]
      rcases hX : X.argmax f with _ | m <;> simp only [hX] <;> split_ifs <;>
        first | rfl | (exfalso; linarith)


end SelectorLemmas


/-- The entering-column fold from a seeded best column is the seeded
first-maximiser fold. -/
theorem entering_fold_go (f : ℕ → ℚ) (l : List ℕ) : ∀ cur : ℕ,
    (l.foldl (fun (acc : ℕ × ℚ) c => if f c > acc.2 then (c, f c) else acc) (cur, f cur)).1 =
      (l.foldl (List.argAux fun b c => f c < f b) (some cur)).getD 0 := by
  induction l with
  | nil => intro cur; rfl
  | cons c X ih =>
    intro cur
    have hstep : List.argAux (fun b c => f c < f b) (some cur) c =
        if f cur < f c then some c else some cur := rfl
    rw [List.foldl_cons, List.foldl_cons, hstep]
    by_cases h : f c > f cur
    · rw [if_pos h, if_pos h, ih c]
    · rw [if_neg h, if_neg h, ih cur]


/-- Elements whose value is at most `p` never displace a seeded best element
of value above `p` in the first-maximiser fold. -/
theorem argAux_max_filter (f : ℕ → ℚ) (p : ℚ) (l : List ℕ) : ∀ cur : ℕ, p < f cur →
    l.foldl (List.argAux fun b c => f c < f b) (some cur) =
      (l.filter fun x => p < f x).foldl (List.argAux fun b c => f c < f b) (some cur) := by
  induction l with
  | nil => intro cur _; rfl
  | cons c X ih =>
    intro cur hcur
    have hstep : List.argAux (fun b c => f c < f b) (some cur) c =
        if f cur < f c then some c else some cur := rfl
    by_cases h : p < f c
    · rw [List.foldl_cons, List.filter_cons_of_pos (by simpa using h), List.foldl_cons, hstep]
      by_cases h2 : f cur < f c
      · rw [if_pos h2, ih c h]
      · rw [if_neg h2, ih cur hcur]
    · have h2 : ¬ f cur < f c := fun hh => h (lt_trans hcur hh)
      rw [List.foldl_cons, hstep, if_neg h2, List.filter_cons_of_neg (by simpa using h),
        ih cur hcur]


/-- The entering-column selection of the modular `phase2` agrees with the
claim's declarative description (first column attaining the maximal reduced
cost above `precision`). -/
theorem enteringCol_eq_claim (t : Tableau) (p : ℚ) :
    enteringCol t p = claimEnteringCol t p := by
  unfold enteringCol claimEnteringCol
  generalize List.range' 1 (t.width - 1) = l
  induction l with
  | nil => rfl
  | cons c X ih =>
    rw [List.foldl_cons]
    by_cases h : t.index 0 c > p
    · rw [if_pos h, entering_fold_go, argAux_max_filter _ p _ _ h,
        List.filter_cons_of_pos (by simpa using h), foldl_argAux_max,
        if_neg (List.cons_ne_nil _ _)]
      have hcons : List.argmax (fun c => t.index 0 c)
            (c :: List.filter (fun c => decide (p < t.index 0 c)) X) =
          (List.filter (fun c => decide (p < t.index 0 c)) X).foldl
            (List.argAux fun b c => t.index 0 c < t.index 0 b) (some c) := rfl
      rw [hcons, foldl_argAux_max]
    · rw [if_neg h, ih, List.filter_cons_of_neg (by simpa using h)]


/-- The leaving-row scan of the modular `phase2`, from any accumulator whose
tracked minimum ratio is still above `precision`, computes: the first
qualifying row whose ratio is at most `precision` if one exists, and otherwise
the first qualifying row attaining the smallest ratio (if it beats the
accumulator). -/
theorem leavingGo_eq (t : Tableau) (col : ℕ) (p : ℚ) (l : List ℕ) :
    ∀ (row₀ : ℕ) (m₀ : WithTop ℚ), (p : WithTop ℚ) < m₀ →
    leavingRowGo t col p l (row₀, m₀) =
      match (l.filter fun r => p < t.index r col).find?
          (fun r => t.index r 0 / t.index r col ≤ p) with
      | some r => r
      | none =>
        match (l.filter fun r => p < t.index r col).argmin
            (fun r => t.index r 0 / t.index r col) with
        | none => row₀
        | some m => if ((t.index m 0 / t.index m col : ℚ) : WithTop ℚ) < m₀ then m
                    else row₀ := by
  induction l with
  | nil => intro row₀ m₀ _; rfl
  | cons r rest ih =>
    intro row₀ m₀ h₀
    by_cases hq : p < t.index r col
    · have hq' : ¬ t.index r col ≤ p := not_le.mpr hq
      rw [List.filter_cons_of_pos (by simpa using hq)]
      by_cases hrt : t.index r 0 / t.index r col ≤ p
      · have hlt : ((t.index r 0 / t.index r col : ℚ) : WithTop ℚ) < m₀ :=
          lt_of_le_of_lt (WithTop.coe_le_coe.mpr hrt) h₀
        rw [List.find?_cons_of_pos _ (by simpa using hrt)]
        simp only [leavingRowGo, if_neg hq', if_pos hlt, if_pos hrt]
      · rw [List.find?_cons_of_neg _ (by simpa using hrt)]
        have hprt : p < t.index r 0 / t.index r col := not_le.mp hrt
        by_cases hlt : ((t.index r 0 / t.index r col : ℚ) : WithTop ℚ) < m₀
        · simp only [leavingRowGo, if_neg hq', if_pos hlt, if_neg hrt]
          rw [ih r _ (WithTop.coe_lt_coe.mpr hprt)]
          have hcons : (r :: (rest.filter fun x => decide (p < t.index x col))).argmin
                (fun x => t.index x 0 / t.index x col) =
              (rest.filter fun x => decide (p < t.index x col)).foldl
                (List.argAux fun b c => t.index b 0 / t.index b col <
                  t.index c 0 / t.index c col) (some r) := rfl
          rcases hf : (rest.filter fun x => decide (p < t.index x col)).find?
              (fun x => decide (t.index x 0 / t.index x col ≤ p)) with _ | r'
          · rw [hcons, foldl_argAux_min]
            rcases hm : (rest.filter fun x => decide (p < t.index x col)).argmin
                (fun x => t.index x 0 / t.index x col) with _ | m
            · simp only [if_pos hlt]
            · by_cases hmr : t.index m 0 / t.index m col < t.index r 0 / t.index r col
              · simp only [if_pos hmr,
                  if_pos (WithTop.coe_lt_coe.mpr hmr), if_pos (lt_trans (WithTop.coe_lt_coe.mpr hmr) hlt)]
              · simp only [if_neg hmr, if_neg (fun h => hmr (WithTop.coe_lt_coe.mp h)),
                  if_pos hlt]
          · rfl
        · have hm₀ : m₀ ≤ ((t.index r 0 / t.index r col : ℚ) : WithTop ℚ) := not_lt.mp hlt
          simp only [leavingRowGo, if_neg hq', if_neg hlt, if_neg hrt]
          rw [ih row₀ m₀ h₀]
          have hcons : (r :: (rest.filter fun x => decide (p < t.index x col))).argmin
                (fun x => t.index x 0 / t.index x col) =
              (rest.filter fun x => decide (p < t.index x col)).foldl
                (List.argAux fun b c => t.index b 0 / t.index b col <
                  t.index c 0 / t.index c col) (some r) := rfl
          rcases hf : (rest.filter fun x => decide (p < t.index x col)).find?
              (fun x => decide (t.index x 0 / t.index x col ≤ p)) with _ | r'
          · rw [hcons, foldl_argAux_min]
            rcases hm : (rest.filter fun x => decide (p < t.index x col)).argmin
                (fun x => t.index x 0 / t.index x col) with _ | m
            · simp only [if_neg hlt]
            · by_cases hmr : t.index m 0 / t.index m col < t.index r 0 / t.index r col
              · simp only [if_pos hmr]
              · have : ¬ ((t.index m 0 / t.index m col : ℚ) : WithTop ℚ) < m₀ := by
                  refine not_lt.mpr (le_trans hm₀ ?_)
                  exact WithTop.coe_le_coe.mpr (not_lt.mp hmr)
                simp only [if_neg hmr, if_neg hlt, if_neg this]
          · rfl
    · have hq' : t.index r col ≤ p := not_lt.mp hq
      rw [List.filter_cons_of_neg (by simpa using hq)]
      simp only [leavingRowGo, if_pos hq']
      exact ih row₀ m₀ h₀


/-- The leaving-row selection of the modular `phase2` agrees with the amended
declarative description. -/
theorem leavingRow_eq_amended (t : Tableau) (col : ℕ) (p : ℚ) :
    leavingRow t col p = amendedLeavingRow t col p := by
  unfold leavingRow amendedLeavingRow
  rw [leavingGo_eq t col p _ 0 ⊤ (WithTop.coe_lt_top p)]
  rcases hf : ((List.range' 1 (t.height - 1)).filter fun r => decide (p < t.index r col)).find?
      (fun r => decide (t.index r 0 / t.index r col ≤ p)) with _ | r
  · rcases hm : ((List.range' 1 (t.height - 1)).filter fun r =>
        decide (p < t.index r col)).argmin (fun r => t.index r 0 / t.index r col) with _ | m
    · simp only [hf, hm, Option.getD_none]
    · simp only [hf, hm, if_pos (WithTop.coe_lt_top _), Option.getD_some]
  · simp only [hf]


/-- Each iteration of the modular `phase2` equals the amended-claim iteration. -/
theorem phase2Go_eq_amended (o : Options) : ∀ (n : ℕ) (h : List (ℕ × ℕ)) (t : Tableau),
    phase2Go o n h t = amendedPhase2Go o n h t := by
  intro n
  induction n with
  | zero => intro h t; rfl
  | succ n ih =>
    intro h t
    simp only [phase2Go, amendedPhase2Go, enteringCol_eq_claim, leavingRow_eq_amended, ih]


set_option maxHeartbeats 2000000 in
/-- Claim C1 (counterexample): `phase2` does not pick the leaving row the
claim describes.  On `c1Tableau` the claim's rule takes row 1 immediately
(qualifying, RHS `≤ precision`) and ends with rounded objective `-1/5`, while
the code keeps scanning (its early exit tests the *ratio*, `1/5 > precision`,
not the RHS), pivots on row 2, and ends with rounded objective `0`. -/
theorem phase2_claim_c1_counterexample :
    leavingRow c1Tableau 1 (1 / 10) = 2 ∧
    claimLeavingRow c1Tableau 1 (1 / 10) = 1 ∧
    (phase2 c1Tableau c1Options).1 = .optimal 0 ∧
    (claimPhase2 c1Tableau c1Options).1 = .optimal (-1 / 5) ∧
    (phase2 c1Tableau c1Options).1 ≠ (claimPhase2 c1Tableau c1Options).1 := by
  have h1 : leavingRow c1Tableau 1 (1 / 10) = 2 := by
    norm_num [leavingRow, leavingRowGo, c1Tableau, Tableau.index]
  have h2 : claimLeavingRow c1Tableau 1 (1 / 10) = 1 := by
    norm_num [claimLeavingRow, claimLeavingRowGo, c1Tableau, Tableau.index]
  have h3 : (phase2 c1Tableau c1Options).1 = .optimal 0 := by
    norm_num [phase2, phase2Go, enteringCol, leavingRow, leavingRowGo, c1Tableau, c1Options,
      Tableau.index, pivot, nzEps, roundToPrecision, jsRound, jsEps, List.range',
      abs_of_pos, abs_of_nonneg]
  have h4 : (claimPhase2 c1Tableau c1Options).1 = .optimal (-1 / 5) := by
    norm_num [claimPhase2, claimPhase2Go, claimEnteringCol, claimLeavingRow, claimLeavingRowGo,
      c1Tableau, c1Options, Tableau.index, pivot, nzEps, roundToPrecision, jsRound, jsEps,
      List.range', List.argmax, List.argAux, abs_of_pos, abs_of_nonneg]
  refine ⟨h1, h2, h3, h4, ?_⟩
  rw [h3, h4]
  intro h
  have := SimplexRes.optimal.inj h
  norm_num at this


/-- Claim C1 (amended): in every iteration, phase-2 picks as entering column
the first column `c ∈ [1, W)` attaining the maximal reduced cost
`M[0, c] > precision` (if none exists it reports `optimal` with result
`roundToPrecision(M[0, 0], precision)`), and as leaving row, among rows
`r ∈ [1, H)` with `M[r, c] > precision`, the first row whose ratio
`M[r, 0] / M[r, c]` is at most `precision` if one exists (the early exit
tests the ratio, not the RHS), and otherwise the first row attaining the
smallest ratio (which need not be positive); if no row qualifies it reports
`unbounded` with the entering column index. -/
theorem phase2_selection_amended_c1 :
    (∀ (o : Options) (n : ℕ) (h : List (ℕ × ℕ)) (t : Tableau),
      phase2Go o n h t = amendedPhase2Go o n h t) ∧
    (∀ (t : Tableau) (o : Options), phase2 t o = amendedPhase2 t o) :=
  ⟨fun o n h t => phase2Go_eq_amended o n h t,
   fun t o => phase2Go_eq_amended o o.maxPivots [] t⟩


section C2Decide


attribute [local semireducible] Rat.add Rat.mul Rat.inv Rat.sub


/-- Claim C2 (counterexample): with `maxIterations = 2`, the branch `x ≥ 2`
is infeasible and the branch `x ≤ 1` yields the integer incumbent `-1`, so
the loop ends with the iteration budget exhausted (`iter = 2`), the queue
empty, and an incumbent.  The code reports `("optimal", -1)`, while the
claim's rule — `optimal` requires exiting *without exhausting the budget*,
`timedout` requires a *non-empty* queue — reports `("infeasible", NaN)`. -/
theorem branchAndCut_claim_c2_counterexample :
    (branchAndCut c2Tm (-3/2) c2Options (fun _ => 0)).2 = (.optimal, some (-1)) ∧
    (bcFinal c2Tm (-3/2) c2Options (fun _ => 0)).iter = c2Options.maxIterations ∧
    (bcFinal c2Tm (-3/2) c2Options (fun _ => 0)).found = true ∧
    c2ClaimVerdict c2Options (-3/2 * (1 - c2Tm.sign * c2Options.tolerance))
      (bcFinal c2Tm (-3/2) c2Options (fun _ => 0)) = (.infeasible, none) ∧
    ((.optimal, some (-1)) : SolutionStatus × Option ℚ) ≠ (.infeasible, none) := by
  refine ⟨by decide, by decide, by decide, by decide, by decide⟩


end C2Decide


/-- Claim C2 (amended): for an integer problem entering the branch-and-cut
loop (root fraction above `precision`), the final status is `timedout` iff
the wall-clock or iteration budget was exhausted with the branch queue still
non-empty and no incumbent within the tolerance threshold (`bcUnfinished`);
otherwise it is `optimal` iff some integer incumbent was found — even when
the budget was exhausted but the queue had emptied or the incumbent was
within tolerance — and `infeasible` otherwise; the companion result is the
best incumbent's objective when one was found and `NaN` otherwise. -/
theorem branchAndCut_status_amended_c2 {V C : Type} (tm : TableauModel V C)
    (initResult : ℚ) (o : Options) (clk : ℕ → ℚ)
    (h : o.precision < (mostFractionalVar tm.tableau tm.integers).2.2) :
    (((branchAndCut tm initResult o clk).2.1 = .timedout) ↔
      bcUnfinished tm initResult o clk) ∧
    (((branchAndCut tm initResult o clk).2.1 = .optimal) ↔
      ¬bcUnfinished tm initResult o clk ∧ (bcFinal tm initResult o clk).found = true) ∧
    (((branchAndCut tm initResult o clk).2.1 = .infeasible) ↔
      ¬bcUnfinished tm initResult o clk ∧ (bcFinal tm initResult o clk).found = false) ∧
    (branchAndCut tm initResult o clk).2.2 =
      (if (bcFinal tm initResult o clk).found = true
       then some ((bcFinal tm initResult o clk).bestEval.untop' 0) else none) := by
  unfold branchAndCut
  rw [if_neg (not_le.mpr h)]
  by_cases hu : bcUnfinished tm initResult o clk
  · rw [if_pos hu]
    exact ⟨iff_of_true rfl hu,
      iff_of_false (by simp) (fun hx => absurd hu hx.1),
      iff_of_false (by simp) (fun hx => absurd hu hx.1), rfl⟩
  · rw [if_neg hu]
    by_cases hf : (bcFinal tm initResult o clk).found = true
    · rw [if_neg (not_not_intro hf)]
      exact ⟨iff_of_false (by simp) hu, iff_of_true rfl ⟨hu, hf⟩,
        iff_of_false (by simp) (fun hx => by rw [hf] at hx; exact absurd hx.2 (by simp)), rfl⟩
    · rw [if_pos hf]
      exact ⟨iff_of_false (by simp) hu,
        iff_of_false (by simp) (fun hx => absurd hx.2 hf), iff_of_true rfl
          ⟨hu, by simpa using hf⟩, rfl⟩


/-- One `branchAndCut` iteration never writes the root tableau: every branch
of the body only touches the queue, the scratch buffers and the incumbent
bookkeeping. -/
theorem bcStep_root (o : Options) (ints : List ℕ) (clk : ℕ → ℚ)
    (stop : WithTop ℚ) (s : BCState) : (bcStep o ints clk stop s).1.root = s.root := by
  unfold bcStep
  repeat' first | rfl | split | dsimp only


/-- The whole `branchAndCut` loop preserves the root tableau. -/
theorem bcLoop_root (o : Options) (th : ℚ) (ints : List ℕ) (clk : ℕ → ℚ)
    (stop : WithTop ℚ) : ∀ (fuel : ℕ) (s : BCState),
    (bcLoop o th ints clk stop fuel s).root = s.root := by
  intro fuel
  induction fuel with
  | zero => intro s; rfl
  | succ n ih =>
    intro s
    unfold bcLoop
    by_cases hg : bcGuard o th s
    · rw [if_pos hg]
      dsimp only
      by_cases hc : (bcStep o ints clk stop s).2 = true
      · rw [if_pos hc, ih, bcStep_root]
      · rw [if_neg hc, bcStep_root]
    · rw [if_neg hg]


/-- Claim C9: throughout a branch-and-cut run the root tableau is never
modified.  `applyCuts` copies the root rows into the scratch buffer and the
cut rows are written only there, each loop iteration (`bcStep`) and the whole
loop (`bcLoop`) return a state whose root tableau — matrix, width, height and
both position maps — equals the one on entry, and the final loop state's root
is the tableau `branchAndCut` was invoked with. -/
theorem branchAndCut_root_frame_c9 :
    (∀ (t : Tableau) (buf : Buffer) (cuts : List Cut) (r c : ℕ),
      r < t.height → c < t.width → ((applyCuts t buf cuts).2).index r c = t.index r c) ∧
    (∀ (o : Options) (ints : List ℕ) (clk : ℕ → ℚ) (stop : WithTop ℚ) (s : BCState),
      (bcStep o ints clk stop s).1.root = s.root) ∧
    (∀ (o : Options) (th : ℚ) (ints : List ℕ) (clk : ℕ → ℚ) (stop : WithTop ℚ)
      (fuel : ℕ) (s : BCState), (bcLoop o th ints clk stop fuel s).root = s.root) ∧
    (∀ (tm : TableauModel ℕ ℕ) (r : ℚ) (o : Options) (clk : ℕ → ℚ),
      (bcFinal tm r o clk).root = tm.tableau) := by
  refine ⟨?_, bcStep_root, bcLoop_root, ?_⟩
  · intro t buf cuts r c hr hc
    unfold applyCuts Tableau.index
    dsimp only
    rw [if_pos ⟨hr, hc⟩]
  · intro tm r o clk
    unfold bcFinal
    rw [bcLoop_root]


/-- Witness for `branchAndCut_root_frame_c9` at concrete inputs. -/
theorem branchAndCut_root_frame_c9_witness :
    (0 < c2Tableau.height ∧ 0 < c2Tableau.width) ∧
    ((applyCuts c2Tableau (mkBuffer 6) [(1, 1, 1)]).2).index 0 0 = c2Tableau.index 0 0 :=
  ⟨⟨by decide, by decide⟩,
   branchAndCut_root_frame_c9.1 c2Tableau (mkBuffer 6) [(1, 1, 1)] 0 0
     (by decide) (by decide)⟩


section MapLemmas


/-- Reading a just-written entry of a map array. -/
theorem getD_set_self (l : List ℕ) (i v : ℕ) (h : i < l.length) :
    (l.set i v).getD i 0 = v := by
  rw [List.getD_eq_getElem?_getD, List.getElem?_set_self (by simpa using h)]
  rfl


/-- Reading an untouched entry of a map array. -/
theorem getD_set_ne (l : List ℕ) (i j v : ℕ) (h : i ≠ j) :
    (l.set i v).getD j 0 = l.getD j 0 := by
  rw [List.getD_eq_getElem?_getD, List.getElem?_set_ne h, ← List.getD_eq_getElem?_getD]


end MapLemmas


/-- Folding index-writes preserves the length of a map array. -/
theorem length_foldl_set (xs : List ℕ) : ∀ (l : List ℕ),
    (xs.foldl (fun a j => a.set j j) l).length = l.length := by
  induction xs with
  | nil => intro l; rfl
  | cons x rest ih => intro l; rw [List.foldl_cons, ih, List.length_set]


/-- Indices not in the write list are untouched by the fold. -/
theorem foldl_set_getD_not_mem (xs : List ℕ) : ∀ (l : List ℕ) (i : ℕ), i ∉ xs →
    (xs.foldl (fun a j => a.set j j) l).getD i 0 = l.getD i 0 := by
  induction xs with
  | nil => intro l i _; rfl
  | cons x rest ih =>
    intro l i h
    rw [List.foldl_cons, ih _ i (fun hm => h (List.mem_cons_of_mem _ hm)),
      getD_set_ne _ _ _ _ (fun hx => h (by rw [hx]; exact List.mem_cons_self i rest))]


/-- Indices in the write list end up holding themselves. -/
theorem foldl_set_getD_mem (xs : List ℕ) : ∀ (l : List ℕ) (i : ℕ), i < l.length → i ∈ xs →
    (xs.foldl (fun a j => a.set j j) l).getD i 0 = i := by
  induction xs with
  | nil => intro l i _ h; cases h
  | cons x rest ih =>
    intro l i hi hmem
    rw [List.foldl_cons]
    by_cases hix : i ∈ rest
    · exact ih _ i (by simpa [List.length_set] using hi) hix
    · have hx : i = x := by
        rcases List.mem_cons.mp hmem with h | h
        · exact h
        · exact absurd h hix
      subst hx
      rw [foldl_set_getD_not_mem rest _ i hix, getD_set_self _ _ _ hi]


/-- The freshly initialised maps have full length and are the identity. -/
theorem initMaps_getD (n : ℕ) : (initMaps n).length = n ∧
    ∀ i, i < n → (initMaps n).getD i 0 = i := by
  unfold initMaps
  constructor
  · rw [length_foldl_set, List.length_replicate]
  · intro i h
    exact foldl_set_getD_mem _ _ i (by simpa using h) (List.mem_range.mpr h)


theorem sameShape_refl (t : Tableau) : SameShape t t := ⟨rfl, rfl, rfl, rfl⟩


theorem sameShape_trans {a b c : Tableau} (h1 : SameShape a b) (h2 : SameShape b c) :
    SameShape a c :=
  ⟨h2.1.trans h1.1, h2.2.1.trans h1.2.1, h2.2.2.1.trans h1.2.2.1, h2.2.2.2.trans h1.2.2.2⟩


theorem update_sameShape (t : Tableau) (r c : ℕ) (v : ℚ) : SameShape t (t.update r c v) :=
  ⟨rfl, rfl, rfl, rfl⟩


/-- A fold of shape-preserving steps preserves the shape. -/
theorem foldl_sameShape {α : Type} (f : Tableau → α → Tableau)
    (hf : ∀ t a, SameShape t (f t a)) :
    ∀ (xs : List α) (t : Tableau), SameShape t (xs.foldl f t) := by
  intro xs
  induction xs with
  | nil => intro t; exact sameShape_refl t
  | cons x rest ih =>
    intro t
    rw [List.foldl_cons]
    exact sameShape_trans (hf t x) (ih (f t x))


theorem fillEntry_sameShape {C : Type} [DecidableEq C] (objective : Option C) (sign : ℚ)
    (rows : List (C × ℕ × Bounds)) (c : ℕ) (t : Tableau) (e : C × ℚ) :
    SameShape t (fillEntry objective sign rows c t e) := by
  unfold fillEntry
  repeat' first | exact sameShape_refl _ | exact update_sameShape _ _ _ _ | split


theorem fillCoefs_sameShape {V C : Type} [DecidableEq C] (objective : Option C) (sign : ℚ)
    (rows : List (C × ℕ × Bounds)) (vars : List (V × List (C × ℚ))) (t : Tableau) :
    SameShape t (fillCoefs objective sign rows vars t) := by
  unfold fillCoefs
  refine foldl_sameShape _ (fun t a => ?_) _ t
  exact foldl_sameShape _ (fun t e => fillEntry_sameShape objective sign rows _ t e) _ t


theorem fillRhs_sameShape {C : Type} (rows : List (C × ℕ × Bounds)) (t : Tableau) :
    SameShape t (fillRhs rows t) := by
  unfold fillRhs
  refine foldl_sameShape _ (fun t e => ?_) _ t
  repeat' first | exact sameShape_refl _ | exact update_sameShape _ _ _ _ | split | dsimp only


theorem fillBinary_sameShape (numConstraints : ℕ) (binCols : List ℕ) (t : Tableau) :
    SameShape t (fillBinary numConstraints binCols t) := by
  unfold fillBinary
  exact foldl_sameShape _
    (fun t e => sameShape_trans (update_sameShape _ _ _ _) (update_sameShape _ _ _ _)) _ t


/-- `MapsInv` transfers along equal shapes. -/
theorem mapsInv_of_sameShape {t t' : Tableau} (h : SameShape t t') (hi : MapsInv t) :
    MapsInv t' := by
  unfold MapsInv at hi ⊢
  rw [h.1, h.2.1, h.2.2.1, h.2.2.2]
  exact hi


/-- Identity maps of full length satisfy the invariant. -/
theorem mapsInv_initMaps (t : Tableau)
    (hp : t.positionOfVariable = initMaps (t.width + t.height))
    (hv : t.variableAtPosition = initMaps (t.width + t.height)) : MapsInv t := by
  obtain ⟨hlen, hget⟩ := initMaps_getD (t.width + t.height)
  refine ⟨by rw [hp, hlen], by rw [hv, hlen], ?_, ?_, ?_, ?_⟩ <;> intro i hi
  · rw [hp, hget i hi]; exact hi
  · rw [hv, hget i hi]; exact hi
  · rw [hv, hget i hi, hp, hget i hi]
  · rw [hp, hget i hi, hv, hget i hi]


/-- The builder's tableau satisfies the position-map bijection invariant. -/
theorem tableauModel_mapsInv {V C : Type} [DecidableEq V] [DecidableEq C] (m : Model V C) :
    MapsInv (tableauModel m).tableau := by
  unfold tableauModel
  dsimp only
  exact mapsInv_of_sameShape
    (sameShape_trans (fillCoefs_sameShape _ _ _ _ _)
      (sameShape_trans (fillRhs_sameShape _ _) (fillBinary_sameShape _ _ _)))
    (mapsInv_initMaps _ rfl rfl)


/-- A pivot at an in-range cell preserves the position-map bijection: it
composes both maps with the transposition of the entering and the leaving
variable. -/
theorem pivot_mapsInv (t : Tableau) (row col : ℕ) (hrow : row < t.height)
    (hcol : col < t.width) (h : MapsInv t) : MapsInv (pivot t row col) := by
  obtain ⟨hplen, hvlen, hpbnd, hvbnd, hpv, hvp⟩ := h
  set N := t.width + t.height with hN
  set leaving := t.variableAtPosition.getD (t.width + row) 0 with hldef
  set entering := t.variableAtPosition.getD col 0 with hedef
  have hWrow : t.width + row < N := by omega
  have hcolN : col < N := by omega
  have hcolne : col ≠ t.width + row := by omega
  have hlN : leaving < N := hvbnd _ hWrow
  have heN : entering < N := hvbnd _ hcolN
  have hpl : t.positionOfVariable.getD leaving 0 = t.width + row := hpv _ hWrow
  have hpe : t.positionOfVariable.getD entering 0 = col := hpv _ hcolN
  have hle : leaving ≠ entering := by
    intro hx
    rw [hx, hpe] at hpl
    omega
  -- characterise the new maps
  have hv_col : ((t.variableAtPosition.set (t.width + row) entering).set col leaving).getD col 0
      = leaving :=
    getD_set_self _ _ _ (by rw [List.length_set, hvlen]; exact hcolN)
  have hv_row : ((t.variableAtPosition.set (t.width + row) entering).set col leaving).getD
      (t.width + row) 0 = entering := by
    rw [getD_set_ne _ _ _ _ hcolne, getD_set_self _ _ _ (by rw [hvlen]; exact hWrow)]
  have hv_other : ∀ i, i ≠ col → i ≠ t.width + row →
      ((t.variableAtPosition.set (t.width + row) entering).set col leaving).getD i 0 =
        t.variableAtPosition.getD i 0 := by
    intro i h1 h2
    rw [getD_set_ne _ _ _ _ (fun hx => h1 hx.symm), getD_set_ne _ _ _ _ (fun hx => h2 hx.symm)]
  have hp_ent : ((t.positionOfVariable.set leaving col).set entering (t.width + row)).getD
      entering 0 = t.width + row :=
    getD_set_self _ _ _ (by rw [List.length_set, hplen]; exact heN)
  have hp_lea : ((t.positionOfVariable.set leaving col).set entering (t.width + row)).getD
      leaving 0 = col := by
    rw [getD_set_ne _ _ _ _ (fun hx => hle hx.symm),
      getD_set_self _ _ _ (by rw [hplen]; exact hlN)]
  have hp_other : ∀ v, v ≠ entering → v ≠ leaving →
      ((t.positionOfVariable.set leaving col).set entering (t.width + row)).getD v 0 =
        t.positionOfVariable.getD v 0 := by
    intro v h1 h2
    rw [getD_set_ne _ _ _ _ (fun hx => h1 hx.symm), getD_set_ne _ _ _ _ (fun hx => h2 hx.symm)]
  have hinj : ∀ p q, p < N → q < N →
      t.variableAtPosition.getD p 0 = t.variableAtPosition.getD q 0 → p = q := by
    intro p q hp hq hx
    have := hpv _ hp
    rw [hx, hpv _ hq] at this
    exact this.symm
  refine ⟨?_, ?_, ?_, ?_, ?_, ?_⟩
  · show ((t.positionOfVariable.set leaving col).set entering (t.width + row)).length = N
    rw [List.length_set, List.length_set, hplen]
  · show ((t.variableAtPosition.set (t.width + row) entering).set col leaving).length = N
    rw [List.length_set, List.length_set, hvlen]
  · intro v hv
    show ((t.positionOfVariable.set leaving col).set entering (t.width + row)).getD v 0 < N
    by_cases h1 : v = entering
    · rw [h1, hp_ent]; exact hWrow
    · by_cases h2 : v = leaving
      · rw [h2, hp_lea]; exact hcolN
      · rw [hp_other v h1 h2]; exact hpbnd v hv
  · intro p hp
    show ((t.variableAtPosition.set (t.width + row) entering).set col leaving).getD p 0 < N
    by_cases h1 : p = col
    · rw [h1, hv_col]; exact hlN
    · by_cases h2 : p = t.width + row
      · rw [h2, hv_row]; exact heN
      · rw [hv_other p h1 h2]; exact hvbnd p hp
  · intro p hp
    show ((t.positionOfVariable.set leaving col).set entering (t.width + row)).getD
      (((t.variableAtPosition.set (t.width + row) entering).set col leaving).getD p 0) 0 = p
    by_cases h1 : p = col
    · rw [h1, hv_col, hp_lea]
    · by_cases h2 : p = t.width + row
      · rw [h2, hv_row, hp_ent]
      · rw [hv_other p h1 h2]
        have hvne : t.variableAtPosition.getD p 0 ≠ entering := by
          intro hx
          exact h1 (hinj p col hp hcolN (by rw [hx, hedef]))
        have hvnl : t.variableAtPosition.getD p 0 ≠ leaving := by
          intro hx
          exact h2 (hinj p (t.width + row) hp hWrow (by rw [hx, hldef]))
        rw [hp_other _ hvne hvnl]
        exact hpv p hp
  · intro v hv
    show ((t.variableAtPosition.set (t.width + row) entering).set col leaving).getD
      (((t.positionOfVariable.set leaving col).set entering (t.width + row)).getD v 0) 0 = v
    by_cases h1 : v = entering
    · rw [h1, hp_ent, hv_row]
    · by_cases h2 : v = leaving
      · rw [h2, hp_lea, hv_col]
      · rw [hp_other v h1 h2]
        have hpne : t.positionOfVariable.getD v 0 ≠ col := by
          intro hx
          apply h1
          have hz := hvp v hv
          rw [hx] at hz
          rw [← hz, hedef]
        have hpnr : t.positionOfVariable.getD v 0 ≠ t.width + row := by
          intro hx
          apply h2
          have hz := hvp v hv
          rw [hx] at hz
          rw [← hz, hldef]
        rw [hv_other _ hpne hpnr]
        exact hvp v hv


/-- Reading inside the taken prefix. -/
theorem getD_take (L : List ℕ) (k i : ℕ) (h : i < k) :
    (L.take k).getD i 0 = L.getD i 0 := by
  rw [List.getD_eq_getElem?_getD, List.getElem?_take_of_lt h, ← List.getD_eq_getElem?_getD]


/-- The extension of one position map performed by `applyCuts`: the prefix is
the root map and the `cuts.length` new tail entries are the identity. -/
theorem extendMap_getD (src dst : List ℕ) (N n : ℕ) (hsrc : src.length = N)
    (hdst : N + n ≤ dst.length) :
    ((((List.range' N n).foldl (fun l i => l.set i i) (typedSet dst src)).take (N + n)).length
        = N + n) ∧
    (∀ i, i < N →
      (((List.range' N n).foldl (fun l i => l.set i i) (typedSet dst src)).take (N + n)).getD i 0
        = src.getD i 0) ∧
    (∀ i, N ≤ i → i < N + n →
      (((List.range' N n).foldl (fun l i => l.set i i) (typedSet dst src)).take (N + n)).getD i 0
        = i) := by
  have hts : (typedSet dst src).length = dst.length := by
    unfold typedSet
    rw [List.length_append, List.length_drop]
    omega
  have hL : ((List.range' N n).foldl (fun l i => l.set i i) (typedSet dst src)).length
      = dst.length := by rw [length_foldl_set, hts]
  refine ⟨?_, ?_, ?_⟩
  · rw [List.length_take, hL]
    omega
  · intro i hi
    rw [getD_take _ _ _ (by omega), foldl_set_getD_not_mem _ _ _ (fun hm => ?_)]
    · unfold typedSet
      rw [List.getD_append _ _ _ _ (by omega)]
    · rcases List.mem_range'.mp hm with ⟨j, _, hj⟩
      omega
  · intro i h1 h2
    rw [getD_take _ _ _ h2, foldl_set_getD_mem _ _ _ (by omega) ?_]
    rw [List.mem_range']
    exact ⟨i - N, by omega, by omega⟩


/-- `applyCuts` preserves the position-map bijection, extended by the
identity on the new slack positions, provided the pre-sized buffer has room
for the cut rows (as allocated by `branchAndCut`). -/
theorem applyCuts_mapsInv (t : Tableau) (buf : Buffer) (cuts : List Cut)
    (h : MapsInv t)
    (hbp : t.width + t.height + cuts.length ≤ buf.bp.length)
    (hbv : t.width + t.height + cuts.length ≤ buf.bv.length) :
    MapsInv (applyCuts t buf cuts).2 := by
  obtain ⟨hplen, hvlen, hpbnd, hvbnd, hpv, hvp⟩ := h
  obtain ⟨hPlen, hPlow, hPhigh⟩ :=
    extendMap_getD t.positionOfVariable buf.bp (t.width + t.height) cuts.length hplen hbp
  obtain ⟨hVlen, hVlow, hVhigh⟩ :=
    extendMap_getD t.variableAtPosition buf.bv (t.width + t.height) cuts.length hvlen hbv
  have hshape : (applyCuts t buf cuts).2.width = t.width ∧
      (applyCuts t buf cuts).2.height = t.height + cuts.length := ⟨rfl, rfl⟩
  refine ⟨?_, ?_, ?_, ?_, ?_, ?_⟩
  · show (((List.range' _ _).foldl _ (typedSet buf.bp t.positionOfVariable)).take _).length = _
    rw [hPlen]
    omega
  · show (((List.range' _ _).foldl _ (typedSet buf.bv t.variableAtPosition)).take _).length = _
    rw [hVlen]
    omega
  · intro i hi
    show (((List.range' _ _).foldl _ (typedSet buf.bp t.positionOfVariable)).take _).getD i 0 < _
    by_cases hlow : i < t.width + t.height
    · rw [hPlow i hlow]
      have := hpbnd i hlow
      omega
    · rw [hPhigh i (by omega) (by simpa [Nat.add_assoc] using hi)]
      simpa [Nat.add_assoc] using hi
  · intro i hi
    show (((List.range' _ _).foldl _ (typedSet buf.bv t.variableAtPosition)).take _).getD i 0 < _
    by_cases hlow : i < t.width + t.height
    · rw [hVlow i hlow]
      have := hvbnd i hlow
      omega
    · rw [hVhigh i (by omega) (by simpa [Nat.add_assoc] using hi)]
      simpa [Nat.add_assoc] using hi
  · intro i hi
    by_cases hlow : i < t.width + t.height
    · show (((List.range' _ _).foldl _ (typedSet buf.bp t.positionOfVariable)).take _).getD
        ((((List.range' _ _).foldl _ (typedSet buf.bv t.variableAtPosition)).take _).getD i 0) 0 = i
      rw [hVlow i hlow, hPlow _ (hvbnd i hlow)]
      exact hpv i hlow
    · show (((List.range' _ _).foldl _ (typedSet buf.bp t.positionOfVariable)).take _).getD
        ((((List.range' _ _).foldl _ (typedSet buf.bv t.variableAtPosition)).take _).getD i 0) 0 = i
      rw [hVhigh i (by omega) (by simpa [Nat.add_assoc] using hi),
        hPhigh i (by omega) (by simpa [Nat.add_assoc] using hi)]
  · intro i hi
    by_cases hlow : i < t.width + t.height
    · show (((List.range' _ _).foldl _ (typedSet buf.bv t.variableAtPosition)).take _).getD
        ((((List.range' _ _).foldl _ (typedSet buf.bp t.positionOfVariable)).take _).getD i 0) 0 = i
      rw [hPlow i hlow, hVlow _ (hpbnd i hlow)]
      exact hvp i hlow
    · show (((List.range' _ _).foldl _ (typedSet buf.bv t.variableAtPosition)).take _).getD
        ((((List.range' _ _).foldl _ (typedSet buf.bp t.positionOfVariable)).take _).getD i 0) 0 = i
      rw [hPhigh i (by omega) (by simpa [Nat.add_assoc] using hi),
        hVhigh i (by omega) (by simpa [Nat.add_assoc] using hi)]


/-- Claim C6: `position_of_variable` and `variable_at_position` always have
length `W + H` (with `H` counting appended cut rows) and are mutually inverse
permutations (`MapsInv`): the builder initialises them so, every in-range
pivot preserves the invariant, and extending a tableau with cuts into an
adequately pre-sized buffer preserves it with identity tail entries. -/
theorem position_maps_bijection_c6 :
    (∀ (m : Model ℕ ℕ), MapsInv (tableauModel m).tableau) ∧
    (∀ (t : Tableau) (row col : ℕ), row < t.height → col < t.width → MapsInv t →
      MapsInv (pivot t row col)) ∧
    (∀ (t : Tableau) (buf : Buffer) (cuts : List Cut), MapsInv t →
      t.width + t.height + cuts.length ≤ buf.bp.length →
      t.width + t.height + cuts.length ≤ buf.bv.length →
      MapsInv (applyCuts t buf cuts).2) :=
  ⟨fun m => tableauModel_mapsInv m,
   fun t row col hr hc h => pivot_mapsInv t row col hr hc h,
   fun t buf cuts h h1 h2 => applyCuts_mapsInv t buf cuts h h1 h2⟩


/-- Witness for `position_maps_bijection_c6` at concrete inputs. -/
theorem position_maps_bijection_c6_witness :
    (1 < c1Tableau.height ∧ 1 < c1Tableau.width ∧ MapsInv c1Tableau ∧
      MapsInv c2Tableau ∧
      c2Tableau.width + c2Tableau.height + 1 ≤ (mkBuffer 6).bp.length ∧
      c2Tableau.width + c2Tableau.height + 1 ≤ (mkBuffer 6).bv.length) ∧
    MapsInv (pivot c1Tableau 1 1) ∧
    MapsInv (applyCuts c2Tableau (mkBuffer 6) [(1, 1, 1)]).2 :=
  ⟨⟨by decide, by decide, by decide, by decide, by decide, by decide⟩,
   position_maps_bijection_c6.2.1 c1Tableau 1 1 (by decide) (by decide) (by decide),
   position_maps_bijection_c6.2.2 c2Tableau (mkBuffer 6) [(1, 1, 1)] (by decide)
     (by decide) (by decide)⟩


/-- The integer-column walk ignores `integers`-membership of keys that are
binary: inserting a binary key into the integer set leaves both collected
lists unchanged. -/
theorem collectIntCols_binary_insert {V C : Type} [DecidableEq V]
    (bin : Bool ⊕ List V) (k : V) (il : List V) (hk : setHas bin k = true)
    (vars : List (V × List (C × ℚ))) :
    collectIntCols bin (.inr (k :: il)) vars = collectIntCols bin (.inr il) vars := by
  unfold collectIntCols
  refine List.foldl_ext _ _ _ (fun acc e _ => ?_)
  dsimp only
  by_cases hb : setHas bin e.2.1 = true
  · simp [hb]
  · have hne : (k == e.2.1) = false := by
      rw [beq_eq_false_iff_ne]
      intro hx
      rw [hx] at hk
      exact hb hk
    have hne' : (e.2.1 == k) = false := by
      rw [beq_eq_false_iff_ne]
      intro hx
      rw [← hx] at hk
      exact hb hk
    have hc : setHas (Sum.inr (k :: il) : Bool ⊕ List V) e.2.1
        = setHas (Sum.inr il : Bool ⊕ List V) e.2.1 := by
      simp only [setHas, List.contains_cons, hne', Bool.false_or]
    rw [if_neg hb, if_neg hb, hc]


/-- Once collected, an integer column stays collected. -/
theorem collectIntCols_go_mono {V C : Type} [DecidableEq V]
    (bin intv : Bool ⊕ List V) :
    ∀ (xs : List (ℕ × (V × List (C × ℚ)))) (acc : List ℕ × List ℕ) (x : ℕ), x ∈ acc.2 →
    x ∈ (xs.foldl
      (fun (acc : List ℕ × List ℕ) e =>
        if setHas bin e.2.1 then (acc.1 ++ [e.1 + 1], acc.2 ++ [e.1 + 1])
        else if setHas intv e.2.1 then (acc.1, acc.2 ++ [e.1 + 1])
        else acc)
      acc).2 := by
  intro xs
  induction xs with
  | nil => intro acc x hx; exact hx
  | cons e rest ih =>
    intro acc x hx
    rw [List.foldl_cons]
    apply ih
    by_cases h1 : setHas bin e.2.1 = true
    · simp only [h1, if_true]
      exact List.mem_append_left _ hx
    · by_cases h2 : setHas intv e.2.1 = true
      · simp only [h1, h2, if_false, if_true]
        exact List.mem_append_left _ hx
      · simp only [h1, h2, if_false]
        exact hx


/-- Every binary variable's column is collected among the integer columns. -/
theorem collectIntCols_mem_of_binary {V C : Type} [DecidableEq V]
    (bin intv : Bool ⊕ List V) :
    ∀ (vs : List (V × List (C × ℚ))) (n : ℕ) (acc : List ℕ × List ℕ)
      (i : ℕ) (v : V × List (C × ℚ)), (i, v) ∈ vs.enumFrom n → setHas bin v.1 = true →
    (i + 1) ∈ ((vs.enumFrom n).foldl
      (fun (acc : List ℕ × List ℕ) e =>
        if setHas bin e.2.1 then (acc.1 ++ [e.1 + 1], acc.2 ++ [e.1 + 1])
        else if setHas intv e.2.1 then (acc.1, acc.2 ++ [e.1 + 1])
        else acc)
      acc).2 := by
  intro vs
  induction vs with
  | nil => intro n acc i v hmem; cases hmem
  | cons w rest ih =>
    intro n acc i v hmem hbin
    rw [List.enumFrom_cons] at hmem ⊢
    rw [List.foldl_cons]
    rcases List.mem_cons.mp hmem with hx | hx
    · have hi : i = n := congrArg Prod.fst hx
      have hv : v = w := congrArg Prod.snd hx
      subst hi hv
      apply collectIntCols_go_mono
      simp only [hbin, if_true]
      exact List.mem_append_right _ (List.mem_singleton_self _)
    · exact ih (n + 1) _ i v hx hbin


/-- The collected integer-column list is strictly sorted, hence duplicate
free: the walk appends the 1-based column index, which grows. -/
theorem collectIntCols_go_pairwise {V C : Type} [DecidableEq V]
    (bin intv : Bool ⊕ List V) :
    ∀ (vs : List (V × List (C × ℚ))) (n : ℕ) (acc : List ℕ × List ℕ),
      (∀ x ∈ acc.2, x < n + 1) → acc.2.Pairwise (· < ·) →
    (((vs.enumFrom n).foldl
      (fun (acc : List ℕ × List ℕ) e =>
        if setHas bin e.2.1 then (acc.1 ++ [e.1 + 1], acc.2 ++ [e.1 + 1])
        else if setHas intv e.2.1 then (acc.1, acc.2 ++ [e.1 + 1])
        else acc)
      acc).2).Pairwise (· < ·) := by
  intro vs
  induction vs with
  | nil => intro n acc _ hp; exact hp
  | cons w rest ih =>
    intro n acc hbnd hp
    rw [List.enumFrom_cons, List.foldl_cons]
    have happ : (acc.2 ++ [n + 1]).Pairwise (· < ·) := by
      rw [List.pairwise_append]
      exact ⟨hp, List.pairwise_singleton _ _, fun a ha b hb => by
        rw [List.mem_singleton.mp hb]; exact hbnd a ha⟩
    have happbnd : ∀ x ∈ acc.2 ++ [n + 1], x < n + 2 := by
      intro x hx
      rcases List.mem_append.mp hx with h | h
      · exact lt_trans (hbnd x h) (Nat.lt_succ_self _)
      · rw [List.mem_singleton.mp h]; omega
    by_cases h1 : setHas bin w.1 = true
    · simp only [h1, if_true]
      exact ih (n + 1) _ happbnd happ
    · by_cases h2 : setHas intv w.1 = true
      · simp only [h1, h2, if_false, if_true]
        exact ih (n + 1) _ happbnd happ
      · simp only [h1, h2, if_false]
        exact ih (n + 1) _ (fun x hx => lt_trans (hbnd x hx) (Nat.lt_succ_self _)) hp


/-- Binary membership of the key makes the two integer-variable sets produce
equal `collectIntCols` pairs inside `tableauModel`. -/
theorem tableauModel_binary_insert {V C : Type} [DecidableEq V] [DecidableEq C]
    (m : Model V C) (k : V) (il : List V)
    (hk : setHas (convertToSet m.binaries) k = true) :
    tableauModel { m with integers := some (Sum.inr (k :: il)) }
      = tableauModel { m with integers := some (Sum.inr il) } := by
  unfold tableauModel
  dsimp only
  by_cases hb : convertToSet m.binaries = Sum.inl true
  · rw [if_pos (Or.inl (Option.some_ne_none _)), if_pos (Or.inl (Option.some_ne_none _)),
        if_pos hb, if_pos hb]
  · rw [if_pos (Or.inl (Option.some_ne_none _)), if_pos (Or.inl (Option.some_ne_none _)),
        if_neg hb, if_neg hb,
        show convertToSet (some (Sum.inr (k :: il))) = Sum.inr (k :: il) from rfl,
        show convertToSet (some (Sum.inr il)) = Sum.inr il from rfl,
        collectIntCols_binary_insert _ k il hk m.vars]


/-- When any of `integers`/`binaries` is set, the integer-column list of
`tableauModel` is the second component of the `collectIntCols` walk. -/
theorem tableauModel_integers_eq {V C : Type} [DecidableEq V] [DecidableEq C]
    (m : Model V C) (hsome : m.integers ≠ none ∨ m.binaries ≠ none) :
    (tableauModel m).integers
      = (collectIntCols (convertToSet m.binaries)
          (if convertToSet m.binaries = Sum.inl true then Sum.inl true
           else convertToSet m.integers) m.vars).2 := by
  unfold tableauModel
  dsimp only
  rw [if_pos hsome]


/-- The collected integer-column list never repeats a column. -/
theorem collectIntCols_nodup {V C : Type} [DecidableEq V]
    (bin intv : Bool ⊕ List V) (vars : List (V × List (C × ℚ))) :
    ((collectIntCols bin intv vars).2).Nodup := by
  have h := collectIntCols_go_pairwise (C := C) bin intv vars 0 ([], [])
    (fun x hx => absurd hx (List.not_mem_nil x)) List.Pairwise.nil
  unfold collectIntCols
  exact List.Pairwise.imp (fun hlt => Nat.ne_of_lt hlt) h


/-- A binary key's column is collected into the integer-column list. -/
theorem collectIntCols_mem {V C : Type} [DecidableEq V]
    (bin intv : Bool ⊕ List V) (vars : List (V × List (C × ℚ)))
    (i : ℕ) (v : V × List (C × ℚ)) (hv : (i, v) ∈ vars.enum)
    (hbin : setHas bin v.1 = true) :
    (i + 1) ∈ (collectIntCols bin intv vars).2 := by
  have h := collectIntCols_mem_of_binary (C := C) bin intv vars 0 ([], []) i v hv hbin
  unfold collectIntCols
  exact h


/-- C8: for every model and key `k` that is binary, marking `k` both integer
and binary yields exactly the same tableau model (tableau, integer-column
list, binary rows) as marking it binary only, and each column of a binary
key appears exactly once in the integer-column list. -/
theorem binary_integer_precedence_c8 {V C : Type} [DecidableEq V] [DecidableEq C]
    (m : Model V C) (k : V) (il : List V)
    (hk : setHas (convertToSet m.binaries) k = true) :
    tableauModel { m with integers := some (Sum.inr (k :: il)) }
      = tableauModel { m with integers := some (Sum.inr il) } ∧
    ((tableauModel { m with integers := some (Sum.inr (k :: il)) } : TableauModel V C).integers).Nodup ∧
    ∀ i v, m.vars.get? i = some v → v.1 = k →
      ((tableauModel { m with integers := some (Sum.inr (k :: il)) } : TableauModel V C).integers).count (i + 1) = 1 := by
  have hints := tableauModel_integers_eq (V := V) (C := C)
    { m with integers := some (Sum.inr (k :: il)) } (Or.inl (Option.some_ne_none _))
  dsimp only at hints
  refine ⟨tableauModel_binary_insert m k il hk, ?_, ?_⟩
  · rw [hints]
    exact collectIntCols_nodup _ _ _
  · intro i v hget hkey
    rw [hints]
    refine List.count_eq_one_of_mem (collectIntCols_nodup _ _ _) ?_
    refine collectIntCols_mem _ _ m.vars i v (List.mk_mem_enum_iff_get?.mpr hget) ?_
    rw [hkey]
    exact hk


theorem binary_integer_precedence_c8_witness :
    setHas (convertToSet c8m.binaries) 5 = true ∧
    (tableauModel { c8m with integers := some (Sum.inr [5]) }
        = tableauModel { c8m with integers := some (Sum.inr ([] : List ℕ)) } ∧
      ((tableauModel { c8m with integers := some (Sum.inr [5]) } : TableauModel ℕ ℕ).integers).Nodup ∧
      ∀ i v, c8m.vars.get? i = some v → v.1 = 5 →
        ((tableauModel { c8m with integers := some (Sum.inr [5]) } : TableauModel ℕ ℕ).integers).count (i + 1) = 1) :=
  ⟨by decide, binary_integer_precedence_c8 c8m 5 [] (by decide)⟩


section C2WitnessDecide


attribute [local semireducible] Rat.add Rat.mul Rat.inv Rat.sub


theorem branchAndCut_status_amended_c2_witness :
    c2Options.precision < (mostFractionalVar c2Tm.tableau c2Tm.integers).2.2 ∧
    ((((branchAndCut c2Tm (-3/2) c2Options (fun _ => 0)).2.1 = .timedout) ↔
        bcUnfinished c2Tm (-3/2) c2Options (fun _ => 0)) ∧
      (((branchAndCut c2Tm (-3/2) c2Options (fun _ => 0)).2.1 = .optimal) ↔
        ¬bcUnfinished c2Tm (-3/2) c2Options (fun _ => 0) ∧
        (bcFinal c2Tm (-3/2) c2Options (fun _ => 0)).found = true) ∧
      (((branchAndCut c2Tm (-3/2) c2Options (fun _ => 0)).2.1 = .infeasible) ↔
        ¬bcUnfinished c2Tm (-3/2) c2Options (fun _ => 0) ∧
        (bcFinal c2Tm (-3/2) c2Options (fun _ => 0)).found = false) ∧
      (branchAndCut c2Tm (-3/2) c2Options (fun _ => 0)).2.2 =
        (if (bcFinal c2Tm (-3/2) c2Options (fun _ => 0)).found = true
         then some ((bcFinal c2Tm (-3/2) c2Options (fun _ => 0)).bestEval.untop' 0)
         else none)) :=
  ⟨by decide, branchAndCut_status_amended_c2 c2Tm (-3/2) c2Options (fun _ => 0) (by decide)⟩


end C2WitnessDecide


/-- A solution status is one of the five terminal conditions. -/
theorem statusCases (st : SolutionStatus) :
    st = .optimal ∨ st = .infeasible ∨ st = .unbounded ∨
      st = .timedout ∨ st = .cycled := by
  cases st
  · exact Or.inl rfl
  · exact Or.inr (Or.inl rfl)
  · exact Or.inr (Or.inr (Or.inl rfl))
  · exact Or.inr (Or.inr (Or.inr (Or.inl rfl)))
  · exact Or.inr (Or.inr (Or.inr (Or.inr rfl)))


/-- C3: for every well-typed model (the `direction` field is one of the typed
values `'maximize'`, `'minimize'` or absent) and every options object, `solve`
returns a solution — it never throws — and reports the terminal condition
through the `status` field, one of the five terminal statuses. -/
theorem solve_no_throw_c3 {V C : Type} [DecidableEq V] [DecidableEq C]
    (m : Model V C) (o : Options) (clk : ℕ → ℚ)
    (hdir : m.direction = none ∨ m.direction = some "maximize" ∨
      m.direction = some "minimize") :
    ∃ s : YSolution V, Y.solve m o clk = .ok s ∧
      (s.status = .optimal ∨ s.status = .infeasible ∨ s.status = .unbounded ∨
       s.status = .timedout ∨ s.status = .cycled) := by
  unfold Y.solve Y.tableauModelE
  rw [if_pos hdir]
  dsimp only
  split
  · exact ⟨_, rfl, statusCases _⟩
  · split
    · exact ⟨_, rfl, statusCases _⟩
    · exact ⟨_, rfl, statusCases _⟩


theorem solve_no_throw_c3_witness :
    (c8m.direction = none ∨ c8m.direction = some "maximize" ∨
      c8m.direction = some "minimize") ∧
    ∃ s : YSolution ℕ, Y.solve c8m c2Options (fun _ => 0) = .ok s ∧
      (s.status = .optimal ∨ s.status = .infeasible ∨ s.status = .unbounded ∨
       s.status = .timedout ∨ s.status = .cycled) :=
  ⟨Or.inl rfl, solve_no_throw_c3 c8m c2Options (fun _ => 0) (Or.inl rfl)⟩


section C10Decide


attribute [local semireducible] Rat.add Rat.mul Rat.inv Rat.sub


/-- Claim C10 (counterexample): with a finite `timeout`, the solution of the
same valid model under the same options depends on the wall clock — a run
whose clock reads stay below the stop time returns `("optimal", 1)` with `x`
assigned, while a run on a slower clock trips the timeout before the first
iteration and returns `("infeasible", NaN)` with no variables; so two solves
of the same model need not return equal solutions. -/
theorem solve_idempotence_c10_counterexample :
    (Y.solve mC10 oC10 c10ClkFast).toOption.map (fun s => (s.status, s.result, s.vars))
        = some (.optimal, .num 1, [(5, .num 1)]) ∧
    (Y.solve mC10 oC10 c10ClkSlow).toOption.map (fun s => (s.status, s.result, s.vars))
        = some (.infeasible, .nan, []) ∧
    ¬ (Y.solve mC10 oC10 c10ClkFast).toOption
        = (Y.solve mC10 oC10 c10ClkSlow).toOption :=
  ⟨by decide, by decide, by decide⟩


end C10Decide


/-- No finite clock reading reaches an infinite stop time. -/
theorem top_le_clk_decide (q : ℚ) :
    decide ((⊤ : WithTop ℚ) ≤ (q : WithTop ℚ)) = false := by
  rw [decide_eq_false_iff_not]
  intro h
  exact WithTop.coe_ne_top (top_le_iff.mp h)


/-- With an infinite stop time, one branch-and-cut iteration is independent
of the clock stream. -/
theorem bcStep_clock_free (o : Options) (ints : List ℕ) (clk1 clk2 : ℕ → ℚ)
    (s : Y.BCState) :
    Y.bcStep o ints clk1 ⊤ s = Y.bcStep o ints clk2 ⊤ s := by
  unfold Y.bcStep
  simp only [top_le_clk_decide]


/-- With an infinite stop time, the branch-and-cut loop is independent of the
clock stream. -/
theorem bcLoop_clock_free (o : Options) (threshold : ℚ) (ints : List ℕ)
    (clk1 clk2 : ℕ → ℚ) :
    ∀ (fuel : ℕ) (s : Y.BCState),
      Y.bcLoop o threshold ints clk1 ⊤ fuel s
        = Y.bcLoop o threshold ints clk2 ⊤ fuel s := by
  intro fuel
  induction fuel with
  | zero => intro s; rfl
  | succ n ih =>
    intro s
    unfold Y.bcLoop
    by_cases hg : Y.bcGuard o threshold s
    · rw [if_pos hg, if_pos hg]
      dsimp only
      rw [bcStep_clock_free o ints clk1 clk2 s, ih]
    · rw [if_neg hg, if_neg hg]


/-- With `timeout = Infinity`, the final branch-and-cut state is independent
of the clock stream. -/
theorem bcFinal_clock_free {V C : Type} (tm : TableauModel V C)
    (initResult : ℚ) (o : Options) (clk1 clk2 : ℕ → ℚ) (ht : o.timeout = ⊤) :
    Y.bcFinal tm initResult o clk1 = Y.bcFinal tm initResult o clk2 := by
  unfold Y.bcFinal
  dsimp only
  rw [ht, top_add, top_add, top_le_clk_decide, top_le_clk_decide,
      bcLoop_clock_free]


/-- With `timeout = Infinity`, `branchAndCut` is independent of the clock. -/
theorem branchAndCut_clock_free {V C : Type} (tm : TableauModel V C)
    (initResult : ℚ) (o : Options) (clk1 clk2 : ℕ → ℚ) (ht : o.timeout = ⊤) :
    Y.branchAndCut tm initResult o clk1 = Y.branchAndCut tm initResult o clk2 := by
  unfold Y.branchAndCut
  rw [bcFinal_clock_free tm initResult o clk1 clk2 ht]


/-- Claim C10 (amended): with the default `timeout` of `Infinity`, `solve` is
a pure function of the model and options — two runs, on any two clock
streams, return equal solutions (same status, same objective, same
variable-value pairs).  With a finite `timeout` the result additionally
depends on the wall clock. -/
theorem solve_idempotent_amended_c10 {V C : Type} [DecidableEq V]
    [DecidableEq C] (m : Model V C) (o : Options) (clk1 clk2 : ℕ → ℚ)
    (ht : o.timeout = ⊤) :
    Y.solve m o clk1 = Y.solve m o clk2 := by
  unfold Y.solve
  cases htm : Y.tableauModelE (V := V) (C := C) m with
  | error e => rfl
  | ok tabmod =>
    dsimp only
    split
    · rfl
    · split
      · rw [branchAndCut_clock_free _ _ o clk1 clk2 ht]
      · rfl


theorem solve_idempotent_amended_c10_witness :
    (c2Options.timeout = ⊤) ∧
    Y.solve mC10 c2Options c10ClkFast = Y.solve mC10 c2Options c10ClkSlow :=
  ⟨rfl, solve_idempotent_amended_c10 mC10 c2Options c10ClkFast c10ClkSlow rfl⟩


/-- `mergeStep` is the per-key tightening map when the key is present, and an
append otherwise. -/
theorem mergeStep_eq {C : Type} [DecidableEq C] (acc : List (C × Bounds))
    (e : C × Constraint) :
    mergeStep acc e =
      if (acc.lookup e.1).isSome then pendingTighten e.1 e.2 acc
      else acc ++ [(e.1, tighten ⟨⊥, ⊤⟩ e.2)] := rfl


theorem effLower_mk_none (mn : WithBot ℚ) (mx : Option ℚ) :
    effLower { equal := none, min := botToOption mn, max := mx } = mn := by
  induction mn using WithBot.recBotCoe with
  | bot => rfl
  | coe q => rfl


theorem effUpper_mk_none (mn : Option ℚ) (mx : WithTop ℚ) :
    effUpper { equal := none, min := mn, max := topToOption mx } = mx := by
  induction mx using WithTop.recTopCoe with
  | top => rfl
  | coe q => rfl


/-- The combined entry's effective lower bound is the max of the two. -/
theorem effLower_combine (c1 c2 : Constraint) :
    effLower (combine c1 c2) = max (effLower c1) (effLower c2) :=
  effLower_mk_none _ _


/-- The combined entry's effective upper bound is the min of the two. -/
theorem effUpper_combine (c1 c2 : Constraint) :
    effUpper (combine c1 c2) = min (effUpper c1) (effUpper c2) :=
  effUpper_mk_none _ _


/-- Tightening by two constraints commutes. -/
theorem tighten_comm (b : Bounds) (x y : Constraint) :
    tighten (tighten b x) y = tighten (tighten b y) x := by
  unfold tighten
  dsimp only
  rw [sup_right_comm, inf_right_comm]


/-- Tightening by the combined entry equals tightening by both entries. -/
theorem tighten_combine (b : Bounds) (c1 c2 : Constraint) :
    tighten b (combine c1 c2) = tighten (tighten b c1) c2 := by
  unfold tighten
  rw [effLower_combine, effUpper_combine]
  dsimp only
  rw [← sup_assoc, ← inf_assoc]


/-- The per-key tightening map preserves which keys are present. -/
theorem lookup_isSome_pendingTighten {C : Type} [DecidableEq C] (k q : C)
    (c2 : Constraint) :
    ∀ (acc : List (C × Bounds)),
      ((pendingTighten k c2 acc).lookup q).isSome = (acc.lookup q).isSome := by
  intro acc
  induction acc with
  | nil => rfl
  | cons kb rest ih =>
    unfold pendingTighten at ih ⊢
    rw [List.map_cons]
    by_cases hk : kb.1 = k
    · rw [if_pos hk, List.lookup_cons, List.lookup_cons]
      cases hq : q == kb.1
      · dsimp only
        exact ih
      · rfl
    · rw [if_neg hk, List.lookup_cons, List.lookup_cons]
      cases hq : q == kb.1
      · dsimp only
        exact ih
      · rfl


/-- Looking up a key present on the left of an append reads the left list. -/
theorem lookup_append_left {C : Type} [DecidableEq C] (k : C) :
    ∀ (acc l : List (C × Bounds)), (acc.lookup k).isSome = true →
      (acc ++ l).lookup k = acc.lookup k := by
  intro acc
  induction acc with
  | nil => intro l h; cases h
  | cons kb rest ih =>
    intro l h
    rw [List.cons_append, List.lookup_cons, List.lookup_cons]
    rw [List.lookup_cons] at h
    cases hq : k == kb.1
    · rw [hq] at h
      dsimp only at h ⊢
      exact ih l h
    · rfl


/-- Looking up a key absent from the left of an append reads the right list. -/
theorem lookup_append_right {C : Type} [DecidableEq C] (k : C) :
    ∀ (acc l : List (C × Bounds)), (acc.lookup k).isSome = false →
      (acc ++ l).lookup k = l.lookup k := by
  intro acc
  induction acc with
  | nil => intro l _; rfl
  | cons kb rest ih =>
    intro l h
    rw [List.cons_append, List.lookup_cons]
    rw [List.lookup_cons] at h
    cases hq : k == kb.1
    · rw [hq] at h
      dsimp only at h ⊢
      exact ih l h
    · rw [hq] at h
      cases h


/-- A key that fails lookup heads no entry of the map. -/
theorem lookup_none_keys {C : Type} [DecidableEq C] (k : C) :
    ∀ (acc : List (C × Bounds)), (acc.lookup k).isSome = false →
      ∀ kb ∈ acc, ¬ kb.1 = k := by
  intro acc
  induction acc with
  | nil => intro _ kb hm; cases hm
  | cons e rest ih =>
    intro h kb hm
    rw [List.lookup_cons] at h
    cases hq : k == e.1
    · rw [hq] at h
      dsimp only at h
      cases hm with
      | head =>
        intro hx
        rw [hx] at hq
        simp at hq
      | tail _ hm => exact ih h kb hm
    · rw [hq] at h
      cases h


/-- The two per-key tightening step functions commute pointwise. -/
theorem stepFun_comm {C : Type} [DecidableEq C] (k q : C) (c2 ce : Constraint)
    (kb : C × Bounds) :
    (fun kb : C × Bounds => if kb.1 = q then (kb.1, tighten kb.2 ce) else kb)
        ((fun kb : C × Bounds => if kb.1 = k then (kb.1, tighten kb.2 c2) else kb) kb)
      = (fun kb : C × Bounds => if kb.1 = k then (kb.1, tighten kb.2 c2) else kb)
        ((fun kb : C × Bounds => if kb.1 = q then (kb.1, tighten kb.2 ce) else kb) kb) := by
  obtain ⟨a, b⟩ := kb
  dsimp only
  by_cases h1 : a = k
  · by_cases h2 : a = q
    · subst h1
      subst h2
      simp only [eq_self_iff_true, if_true]
      rw [tighten_comm]
    · subst h1
      simp only [h2, eq_self_iff_true, if_true, if_false]
  · by_cases h2 : a = q
    · subst h2
      simp only [h1, eq_self_iff_true, if_true, if_false]
    · simp only [h1, h2, if_false]


/-- One merge step commutes past a pending per-key tightening, provided the
pending key is already present. -/
theorem mergeStep_pendingTighten {C : Type} [DecidableEq C] (k : C)
    (c2 : Constraint) (acc : List (C × Bounds)) (e : C × Constraint)
    (hk : (acc.lookup k).isSome = true) :
    mergeStep (pendingTighten k c2 acc) e = pendingTighten k c2 (mergeStep acc e) := by
  rw [mergeStep_eq, mergeStep_eq, lookup_isSome_pendingTighten]
  by_cases hc : (acc.lookup e.1).isSome = true
  · rw [if_pos hc, if_pos hc]
    unfold pendingTighten
    rw [List.map_map, List.map_map]
    refine List.map_congr_left (fun kb _ => ?_)
    exact stepFun_comm k e.1 c2 e.2 kb
  · rw [if_neg hc, if_neg hc]
    have hek : ¬ e.1 = k := by
      intro hx
      rw [hx] at hc
      exact hc hk
    unfold pendingTighten
    rw [List.map_append, List.map_cons, List.map_nil, if_neg hek]


/-- The whole merge loop commutes past a pending per-key tightening. -/
theorem foldl_mergeStep_pendingTighten {C : Type} [DecidableEq C] (k : C)
    (c2 : Constraint) :
    ∀ (L : List (C × Constraint)) (acc : List (C × Bounds)),
      (acc.lookup k).isSome = true →
      L.foldl mergeStep (pendingTighten k c2 acc)
        = pendingTighten k c2 (L.foldl mergeStep acc) := by
  intro L
  induction L with
  | nil => intro acc _; rfl
  | cons e rest ih =>
    intro acc h
    rw [List.foldl_cons, List.foldl_cons, mergeStep_pendingTighten k c2 acc e h]
    refine ih _ ?_
    rw [mergeStep_eq]
    by_cases hc : (acc.lookup e.1).isSome = true
    · rw [if_pos hc, lookup_isSome_pendingTighten]
      exact h
    · rw [if_neg hc, lookup_append_left k acc _ h]
      exact h


/-- Merging the key and then tightening it pending equals merging the
combined entry directly. -/
theorem pendingTighten_mergeStep_combine {C : Type} [DecidableEq C]
    (acc : List (C × Bounds)) (k : C) (c1 c2 : Constraint) :
    pendingTighten k c2 (mergeStep acc (k, c1)) = mergeStep acc (k, combine c1 c2) := by
  rw [mergeStep_eq, mergeStep_eq]
  dsimp only
  by_cases h : (acc.lookup k).isSome = true
  · rw [if_pos h, if_pos h]
    unfold pendingTighten
    rw [List.map_map]
    refine List.map_congr_left (fun kb _ => ?_)
    obtain ⟨a, b⟩ := kb
    dsimp only [Function.comp]
    by_cases h1 : a = k
    · subst h1
      simp only [eq_self_iff_true, if_true]
      rw [tighten_combine]
    · simp only [h1, if_false]
  · rw [if_neg h, if_neg h]
    unfold pendingTighten
    rw [List.map_append, List.map_cons, List.map_nil]
    have hall := lookup_none_keys k acc (by
      simp only [Bool.not_eq_true] at h
      exact h)
    have hacc : acc.map
        (fun kb : C × Bounds => if kb.1 = k then (kb.1, tighten kb.2 c2) else kb) = acc := by
      calc acc.map (fun kb : C × Bounds => if kb.1 = k then (kb.1, tighten kb.2 c2) else kb)
          = acc.map id := List.map_congr_left (fun kb hm => by rw [if_neg (hall kb hm)]; rfl)
        _ = acc := List.map_id acc
    rw [hacc]
    dsimp only
    rw [if_pos rfl, tighten_combine]


/-- The merge loop preserves key presence. -/
theorem foldl_mergeStep_lookup_mono {C : Type} [DecidableEq C] (k : C) :
    ∀ (L : List (C × Constraint)) (acc : List (C × Bounds)),
      (acc.lookup k).isSome = true →
      ((L.foldl mergeStep acc).lookup k).isSome = true := by
  intro L
  induction L with
  | nil => intro acc h; exact h
  | cons e rest ih =>
    intro acc h
    rw [List.foldl_cons]
    refine ih _ ?_
    rw [mergeStep_eq]
    by_cases hc : (acc.lookup e.1).isSome = true
    · rw [if_pos hc, lookup_isSome_pendingTighten]
      exact h
    · rw [if_neg hc, lookup_append_left k acc _ h]
      exact h


/-- Merging an entry makes its key present. -/
theorem mergeStep_lookup_self {C : Type} [DecidableEq C]
    (acc : List (C × Bounds)) (k : C) (c : Constraint) :
    ((mergeStep acc (k, c)).lookup k).isSome = true := by
  rw [mergeStep_eq]
  dsimp only
  by_cases h : (acc.lookup k).isSome = true
  · rw [if_pos h, lookup_isSome_pendingTighten]
    exact h
  · rw [if_neg h, lookup_append_right k acc _ (by
      simp only [Bool.not_eq_true] at h
      exact h)]
    rw [List.lookup_cons]
    simp


/-- Two entries of the same key merge to the same map as the single combined
entry, wherever the two occur in the constraint list. -/
theorem mergeConstraints_dup {C : Type} [DecidableEq C] (k : C)
    (c1 c2 : Constraint) (A B Cs : List (C × Constraint)) :
    mergeConstraints (A ++ (k, c1) :: (B ++ (k, c2) :: Cs))
      = mergeConstraints (A ++ (k, combine c1 c2) :: (B ++ Cs)) := by
  unfold mergeConstraints
  rw [List.foldl_append, List.foldl_append, List.foldl_cons, List.foldl_cons,
      List.foldl_append, List.foldl_append, List.foldl_cons]
  congr 1
  have hk1 : ((mergeStep (A.foldl mergeStep []) (k, c1)).lookup k).isSome = true :=
    mergeStep_lookup_self _ k c1
  have hkB : ((B.foldl mergeStep (mergeStep (A.foldl mergeStep []) (k, c1))).lookup k).isSome
      = true := foldl_mergeStep_lookup_mono k B _ hk1
  rw [mergeStep_eq]
  dsimp only
  rw [if_pos hkB, ← foldl_mergeStep_pendingTighten k c2 B _ hk1]
  congr 1
  exact pendingTighten_mergeStep_combine _ k c1 c2


/-- C5: a constraints iterable containing two entries `(k, c1)` and `(k, c2)`
with the same key builds exactly the same tableau as the one with a single
combined entry whose effective upper bound is `min` of the two and whose
effective lower bound is `max` of the two (each entry's `equal` field
absorbing both sides as `min = max = equal`), wherever the two entries occur;
correspondingly the merged bounds maps coincide. -/
theorem constraint_merge_c5 {V C : Type} [DecidableEq V] [DecidableEq C]
    (m : Model V C) (k : C) (c1 c2 : Constraint)
    (A B Cs : List (C × Constraint)) :
    tableauModel { m with constraints := A ++ (k, c1) :: (B ++ (k, c2) :: Cs) }
      = tableauModel { m with constraints := A ++ (k, combine c1 c2) :: (B ++ Cs) } ∧
    mergeConstraints (A ++ (k, c1) :: (B ++ (k, c2) :: Cs))
      = mergeConstraints (A ++ (k, combine c1 c2) :: (B ++ Cs)) ∧
    effLower (combine c1 c2) = max (effLower c1) (effLower c2) ∧
    effUpper (combine c1 c2) = min (effUpper c1) (effUpper c2) := by
  have hm := mergeConstraints_dup k c1 c2 A B Cs
  refine ⟨?_, hm, effLower_combine c1 c2, effUpper_combine c1 c2⟩
  unfold tableauModel
  dsimp only
  rw [hm]


theorem index_update (t : Tableau) (r c : ℕ) (v : ℚ) (r' c' : ℕ) :
    (t.update r c v).index r' c' = if r' = r ∧ c' = c then v else t.index r' c' := rfl


theorem index_update_ne (t : Tableau) (r c : ℕ) (v : ℚ) (r' c' : ℕ)
    (h : ¬(r' = r ∧ c' = c)) :
    (t.update r c v).index r' c' = t.index r' c' := by
  rw [index_update, if_neg h]


/-- The fold of `assignRows` in terms of the recursion. -/
theorem assignRows_go_eq {C : Type} :
    ∀ (merged : List (C × Bounds)) (acc : List (C × ℕ × Bounds) × ℕ),
      merged.foldl
        (fun acc e => (acc.1 ++ [(e.1, acc.2, e.2)], acc.2 + e.2.sides)) acc
      = (acc.1 ++ rowsList acc.2 merged, acc.2 + sumSides merged) := by
  intro merged
  induction merged with
  | nil =>
    intro acc
    simp [rowsList, sumSides]
  | cons kb rest ih =>
    intro acc
    rw [List.foldl_cons, ih]
    refine Prod.ext ?_ ?_
    · rw [show rowsList acc.2 (kb :: rest)
          = (kb.1, acc.2, kb.2) :: rowsList (acc.2 + kb.2.sides) rest from rfl]
      simp [List.append_assoc]
    · unfold sumSides
      rw [List.map_cons, List.sum_cons]
      dsimp only
      omega


theorem assignRows_eq {C : Type} (merged : List (C × Bounds)) :
    assignRows merged = (rowsList 1 merged, 1 + sumSides merged) := by
  unfold assignRows
  rw [assignRows_go_eq]
  simp


/-- Every assigned row block sits inside the assigned range and carries a
merged bounds record. -/
theorem rowsList_mem {C : Type} :
    ∀ (merged : List (C × Bounds)) (n : ℕ) (e : C × ℕ × Bounds),
      e ∈ rowsList n merged →
      n ≤ e.2.1 ∧ e.2.1 + e.2.2.sides ≤ n + sumSides merged ∧ (e.1, e.2.2) ∈ merged := by
  intro merged
  induction merged with
  | nil => intro n e he; cases he
  | cons kb rest ih =>
    intro n e he
    unfold rowsList at he
    cases he with
    | head =>
      refine ⟨Nat.le_refl n, ?_, List.mem_cons_self _ _⟩
      dsimp only
      unfold sumSides
      rw [List.map_cons, List.sum_cons]
      omega
    | tail _ hm =>
      obtain ⟨h1, h2, h3⟩ := ih (n + kb.2.sides) e hm
      refine ⟨le_trans (Nat.le_add_right n _) h1, ?_, List.mem_cons_of_mem _ h3⟩
      unfold sumSides at h2 ⊢
      rw [List.map_cons, List.sum_cons]
      omega


/-- Assigned row blocks are pairwise disjoint, in increasing order. -/
theorem rowsList_pairwise {C : Type} :
    ∀ (merged : List (C × Bounds)) (n : ℕ),
      (rowsList n merged).Pairwise
        (fun e1 e2 : C × ℕ × Bounds => e1.2.1 + e1.2.2.sides ≤ e2.2.1) := by
  intro merged
  induction merged with
  | nil => intro n; exact List.Pairwise.nil
  | cons kb rest ih =>
    intro n
    unfold rowsList
    refine List.Pairwise.cons ?_ (ih (n + kb.2.sides))
    intro e he
    exact (rowsList_mem rest (n + kb.2.sides) e he).1


/-- The assigned keys are the merged keys, in order. -/
theorem rowsList_keys {C : Type} :
    ∀ (merged : List (C × Bounds)) (n : ℕ),
      (rowsList n merged).map (fun e => e.1) = merged.map Prod.fst := by
  intro merged
  induction merged with
  | nil => intro n; rfl
  | cons kb rest ih =>
    intro n
    unfold rowsList
    rw [List.map_cons, List.map_cons, ih]


/-- A successful lookup is a member. -/
theorem lookup_mem {C β : Type} [DecidableEq C] (k : C) (v : β) :
    ∀ (l : List (C × β)), l.lookup k = some v → (k, v) ∈ l := by
  intro l
  induction l with
  | nil => intro h; cases h
  | cons e rest ih =>
    intro h
    rw [List.lookup_cons] at h
    cases hq : k == e.1
    · rw [hq] at h
      exact List.mem_cons_of_mem _ (ih h)
    · rw [hq] at h
      dsimp only at h
      have hk : k = e.1 := by
        have := hq
        rw [beq_iff_eq] at this
        exact this
      obtain ⟨a, b⟩ := e
      cases h
      rw [hk]
      exact List.mem_cons_self _ _


/-- With no duplicate keys, membership determines the lookup. -/
theorem nodup_lookup {C β : Type} [DecidableEq C] (k : C) (v : β) :
    ∀ (l : List (C × β)), (l.map Prod.fst).Nodup → (k, v) ∈ l →
      l.lookup k = some v := by
  intro l
  induction l with
  | nil => intro _ h; cases h
  | cons e rest ih =>
    intro hnd hm
    rw [List.map_cons, List.nodup_cons] at hnd
    cases hm with
    | head =>
      rw [List.lookup_cons]
      simp
    | tail _ hm =>
      have hk : ¬ k = e.1 := by
        intro hx
        refine hnd.1 ?_
        rw [← hx]
        exact List.mem_map_of_mem Prod.fst hm
      rw [List.lookup_cons]
      have hb : (k == e.1) = false := by
        rw [beq_eq_false_iff_ne]
        exact hk
      rw [hb]
      exact ih hnd.2 hm


/-- The per-key tightening map does not change the key sequence. -/
theorem pendingTighten_keys {C : Type} [DecidableEq C] (k : C) (c2 : Constraint)
    (acc : List (C × Bounds)) :
    (pendingTighten k c2 acc).map Prod.fst = acc.map Prod.fst := by
  unfold pendingTighten
  rw [List.map_map]
  refine List.map_congr_left (fun kb _ => ?_)
  by_cases h : kb.1 = k
  · rw [Function.comp_apply, if_pos h]
  · rw [Function.comp_apply, if_neg h]


/-- One merge step keeps the key sequence duplicate-free. -/
theorem mergeStep_keys_nodup {C : Type} [DecidableEq C]
    (acc : List (C × Bounds)) (e : C × Constraint)
    (h : (acc.map Prod.fst).Nodup) :
    ((mergeStep acc e).map Prod.fst).Nodup := by
  rw [mergeStep_eq]
  by_cases hc : (acc.lookup e.1).isSome = true
  · rw [if_pos hc, pendingTighten_keys]
    exact h
  · rw [if_neg hc, List.map_append]
    rw [List.nodup_append]
    refine ⟨h, List.nodup_singleton _, ?_⟩
    intro a ha hb
    have hall := lookup_none_keys e.1 acc (by
      simp only [Bool.not_eq_true] at hc
      exact hc)
    obtain ⟨kb, hkb, rfl⟩ := List.mem_map.mp ha
    simp only [List.map_cons, List.map_nil, List.mem_singleton] at hb
    exact hall kb hkb hb


/-- The merged constraint map has no duplicate keys. -/
theorem mergeConstraints_keys_nodup {C : Type} [DecidableEq C] :
    ∀ (L : List (C × Constraint)) (acc : List (C × Bounds)),
      (acc.map Prod.fst).Nodup →
      (((L.foldl mergeStep acc).map Prod.fst)).Nodup := by
  intro L
  induction L with
  | nil => intro acc h; exact h
  | cons e rest ih =>
    intro acc h
    rw [List.foldl_cons]
    exact ih _ (mergeStep_keys_nodup acc e h)


/-- A coefficient write only touches its own column. -/
theorem fillEntry_col_frame {C : Type} [DecidableEq C] (objective : Option C)
    (sign : ℚ) (rows : List (C × ℕ × Bounds)) (c : ℕ) (t : Tableau)
    (e : C × ℚ) (r' c' : ℕ) (h : ¬ c' = c) :
    (fillEntry objective sign rows c t e).index r' c' = t.index r' c' := by
  unfold fillEntry
  dsimp only
  repeat' split
  all_goals simp [Tableau.index, Tableau.update, h]


/-- The exact cell value one coefficient write leaves in the rows of the
constraint it targets. -/
theorem fillEntry_cell {C : Type} [DecidableEq C] (objective : Option C)
    (sign : ℚ) (rows : List (C × ℕ × Bounds)) (c : ℕ) (t : Tableau)
    (e : C × ℚ) (r r0 : ℕ) (b : Bounds) (hr : ¬ r = 0)
    (hl : rows.lookup e.1 = some (r0, b)) :
    (fillEntry objective sign rows c t e).index r c
      = cellVal b r0 r e.2 (t.index r c) := by
  have hobj : ∀ tt : Tableau,
      ((if objective = some e.1 then tt.update 0 c (sign * e.2) else tt).index r c)
        = tt.index r c := by
    intro tt
    split
    · exact index_update_ne _ _ _ _ _ _ (fun hx => hr hx.1)
    · rfl
  unfold fillEntry cellVal
  dsimp only
  rw [hl]
  dsimp only
  by_cases hu : b.upper ≠ ⊤
  · rw [if_pos hu, if_pos hu]
    by_cases hlo : b.lower ≠ ⊥
    · rw [if_pos hlo]
      by_cases h1 : r = r0 + 1
      · rw [if_pos (show b.lower ≠ ⊥ ∧ r = r0 + 1 from ⟨hlo, h1⟩),
            index_update, if_pos (show r = r0 + 1 ∧ c = c from ⟨h1, rfl⟩)]
      · rw [if_neg (show ¬(b.lower ≠ ⊥ ∧ r = r0 + 1) from fun hx => h1 hx.2),
            index_update_ne _ _ _ _ _ _ (fun hx => h1 hx.1)]
        by_cases h0 : r = r0
        · rw [if_pos h0, index_update, if_pos (show r = r0 ∧ c = c from ⟨h0, rfl⟩)]
        · rw [if_neg h0, index_update_ne _ _ _ _ _ _ (fun hx => h0 hx.1), hobj]
    · rw [if_neg hlo,
          if_neg (show ¬(b.lower ≠ ⊥ ∧ r = r0 + 1) from fun hx => hlo hx.1)]
      by_cases h0 : r = r0
      · rw [if_pos h0, index_update, if_pos (show r = r0 ∧ c = c from ⟨h0, rfl⟩)]
      · rw [if_neg h0, index_update_ne _ _ _ _ _ _ (fun hx => h0 hx.1), hobj]
  · rw [if_neg hu, if_neg hu]
    by_cases hlo : b.lower ≠ ⊥
    · rw [if_pos hlo, if_pos hlo]
      by_cases h0 : r = r0
      · rw [if_pos h0, index_update, if_pos (show r = r0 ∧ c = c from ⟨h0, rfl⟩)]
      · rw [if_neg h0, index_update_ne _ _ _ _ _ _ (fun hx => h0 hx.1), hobj]
    · rw [if_neg hlo, if_neg hlo, hobj]


/-- A coefficient write leaves every non-objective row outside the rows of
its target constraint untouched. -/
theorem fillEntry_row_frame {C : Type} [DecidableEq C] (objective : Option C)
    (sign : ℚ) (rows : List (C × ℕ × Bounds)) (c : ℕ) (t : Tableau)
    (e : C × ℚ) (r c' : ℕ) (hr : ¬ r = 0)
    (hsp : ∀ r0 b, rows.lookup e.1 = some (r0, b) →
      r < r0 ∨ r0 + Bounds.sides b ≤ r) :
    (fillEntry objective sign rows c t e).index r c' = t.index r c' := by
  have hobj : ∀ tt : Tableau,
      ((if objective = some e.1 then tt.update 0 c (sign * e.2) else tt).index r c')
        = tt.index r c' := by
    intro tt
    split
    · exact index_update_ne _ _ _ _ _ _ (fun hx => hr hx.1)
    · rfl
  unfold fillEntry
  dsimp only
  cases hl : rows.lookup e.1 with
  | none => exact hobj t
  | some rb =>
    obtain ⟨r0, b⟩ := rb
    have hd := hsp r0 b hl
    dsimp only
    by_cases hu : b.upper ≠ ⊤
    · rw [if_pos hu]
      by_cases hlo : b.lower ≠ ⊥
      · rw [if_pos hlo]
        have hs : Bounds.sides b = 2 := by
          unfold Bounds.sides
          rw [if_neg (fun hx => hlo hx), if_neg (fun hx => hu hx)]
        rw [hs] at hd
        rw [index_update_ne _ _ _ _ _ _ (fun hx => by omega),
            index_update_ne _ _ _ _ _ _ (fun hx => by omega), hobj]
      · rw [if_neg hlo]
        have hs : Bounds.sides b = 1 := by
          unfold Bounds.sides
          rw [if_pos (by simpa using hlo), if_neg (fun hx => hu hx)]
        rw [hs] at hd
        rw [index_update_ne _ _ _ _ _ _ (fun hx => by omega), hobj]
    · rw [if_neg hu]
      by_cases hlo : b.lower ≠ ⊥
      · rw [if_pos hlo]
        have hs : 1 ≤ Bounds.sides b := by
          unfold Bounds.sides
          rw [if_neg (fun hx => hlo hx)]
          omega
        rw [index_update_ne _ _ _ _ _ _ (fun hx => by omega), hobj]
      · rw [if_neg hlo, hobj]


/-- A variable column's whole entry fold only touches its own column. -/
theorem entries_fold_col_frame {C : Type} [DecidableEq C] (objective : Option C)
    (sign : ℚ) (rows : List (C × ℕ × Bounds)) (c : ℕ) (r' c' : ℕ)
    (h : ¬ c' = c) :
    ∀ (entries : List (C × ℚ)) (t : Tableau),
      ((entries.foldl (fun t e => fillEntry objective sign rows c t e) t).index r' c')
        = t.index r' c' := by
  intro entries
  induction entries with
  | nil => intro t; rfl
  | cons e rest ih =>
    intro t
    rw [List.foldl_cons, ih, fillEntry_col_frame _ _ _ _ _ _ _ _ h]


/-- A variable column's whole entry fold leaves non-objective rows outside
all looked-up constraint blocks untouched. -/
theorem entries_fold_row_frame {C : Type} [DecidableEq C] (objective : Option C)
    (sign : ℚ) (rows : List (C × ℕ × Bounds)) (c : ℕ) (r c' : ℕ)
    (hr : ¬ r = 0)
    (hsp : ∀ k' r0 b, rows.lookup k' = some (r0, b) →
      r < r0 ∨ r0 + Bounds.sides b ≤ r) :
    ∀ (entries : List (C × ℚ)) (t : Tableau),
      ((entries.foldl (fun t e => fillEntry objective sign rows c t e) t).index r c')
        = t.index r c' := by
  intro entries
  induction entries with
  | nil => intro t; rfl
  | cons e rest ih =>
    intro t
    rw [List.foldl_cons, ih,
        fillEntry_row_frame _ _ _ _ _ _ _ _ hr (fun r0 b hx => hsp e.1 r0 b hx)]


/-- The per-column cell value of one variable's entry fold in the rows of a
fixed constraint block, with all other blocks disjoint. -/
theorem entries_fold_cell {C : Type} [DecidableEq C] (objective : Option C)
    (sign : ℚ) (rows : List (C × ℕ × Bounds)) (c : ℕ) (k : C) (r0 : ℕ)
    (b : Bounds) (r : ℕ) (hr : ¬ r = 0)
    (hk : rows.lookup k = some (r0, b))
    (hd : ∀ k' r' b', rows.lookup k' = some (r', b') → ¬ k' = k →
      r < r' ∨ r' + Bounds.sides b' ≤ r) :
    ∀ (entries : List (C × ℚ)) (t : Tableau),
      ((entries.foldl (fun t e => fillEntry objective sign rows c t e) t).index r c)
        = entries.foldl
            (fun acc e => if e.1 = k then cellVal b r0 r e.2 acc else acc)
            (t.index r c) := by
  intro entries
  induction entries with
  | nil => intro t; rfl
  | cons e rest ih =>
    intro t
    rw [List.foldl_cons, List.foldl_cons, ih]
    congr 1
    by_cases he : e.1 = k
    · rw [if_pos he]
      exact fillEntry_cell objective sign rows c t e r r0 b hr (by rw [he]; exact hk)
    · rw [if_neg he]
      exact fillEntry_row_frame objective sign rows c t e r c hr
        (fun r' b' hx => hd e.1 r' b' hx he)


/-- Enumeration from `n` only produces indices at least `n`. -/
theorem enumFrom_fst_le {α : Type} :
    ∀ (l : List α) (n : ℕ) (e : ℕ × α), e ∈ l.enumFrom n → n ≤ e.1 := by
  intro l
  induction l with
  | nil => intro n e he; cases he
  | cons x rest ih =>
    intro n e he
    rw [show (x :: rest).enumFrom n = (n, x) :: rest.enumFrom (n + 1) from rfl] at he
    cases he with
    | head => exact Nat.le_refl n
    | tail _ hm => exact Nat.le_trans (Nat.le_succ n) (ih (n + 1) e hm)


/-- The variable fold leaves columns of unprocessed indices untouched. -/
theorem vars_fold_col_frame {V C : Type} [DecidableEq C] (objective : Option C)
    (sign : ℚ) (rows : List (C × ℕ × Bounds)) (r' c' : ℕ) :
    ∀ (xs : List (ℕ × V × List (C × ℚ))) (t : Tableau),
      (∀ ive ∈ xs, ¬ c' = ive.1 + 1) →
      ((xs.foldl
        (fun t ive => ive.2.2.foldl
          (fun t e => fillEntry objective sign rows (ive.1 + 1) t e) t) t).index r' c')
        = t.index r' c' := by
  intro xs
  induction xs with
  | nil => intro t _; rfl
  | cons ive rest ih =>
    intro t h
    rw [List.foldl_cons, ih _ (fun x hx => h x (List.mem_cons_of_mem _ hx)),
        entries_fold_col_frame _ _ _ _ _ _ (h ive (List.mem_cons_self _ _))]


/-- The variable fold leaves non-objective rows outside all constraint
blocks untouched. -/
theorem vars_fold_row_frame {V C : Type} [DecidableEq C] (objective : Option C)
    (sign : ℚ) (rows : List (C × ℕ × Bounds)) (r c' : ℕ) (hr : ¬ r = 0)
    (hsp : ∀ k' r0 b, rows.lookup k' = some (r0, b) →
      r < r0 ∨ r0 + Bounds.sides b ≤ r) :
    ∀ (xs : List (ℕ × V × List (C × ℚ))) (t : Tableau),
      ((xs.foldl
        (fun t ive => ive.2.2.foldl
          (fun t e => fillEntry objective sign rows (ive.1 + 1) t e) t) t).index r c')
        = t.index r c' := by
  intro xs
  induction xs with
  | nil => intro t; rfl
  | cons ive rest ih =>
    intro t
    rw [List.foldl_cons, ih, entries_fold_row_frame _ _ _ _ _ _ hr hsp]


/-- The cell a constraint block row receives in a given variable's column. -/
theorem vars_fold_cell {V C : Type} [DecidableEq C] (objective : Option C)
    (sign : ℚ) (rows : List (C × ℕ × Bounds)) (k : C) (r0 : ℕ) (b : Bounds)
    (r : ℕ) (hr : ¬ r = 0) (hk : rows.lookup k = some (r0, b))
    (hd : ∀ k' r' b', rows.lookup k' = some (r', b') → ¬ k' = k →
      r < r' ∨ r' + Bounds.sides b' ≤ r) :
    ∀ (vars : List (V × List (C × ℚ))) (n i : ℕ) (v : V × List (C × ℚ))
      (t : Tableau), vars.get? i = some v →
      (((vars.enumFrom n).foldl
        (fun t ive => ive.2.2.foldl
          (fun t e => fillEntry objective sign rows (ive.1 + 1) t e) t) t).index r (n + i + 1))
        = v.2.foldl
            (fun acc e => if e.1 = k then cellVal b r0 r e.2 acc else acc)
            (t.index r (n + i + 1)) := by
  intro vars
  induction vars with
  | nil => intro n i v t h; cases h
  | cons w rest ih =>
    intro n i v t h
    cases i with
    | zero =>
      injection h with h
      subst h
      rw [show (w :: rest).enumFrom n = (n, w) :: rest.enumFrom (n + 1) from rfl,
          List.foldl_cons]
      rw [vars_fold_col_frame objective sign rows r _ _ _
          (fun ive hm hx => by
            have := enumFrom_fst_le rest (n + 1) ive hm
            omega)]
      exact entries_fold_cell objective sign rows _ k r0 b r hr hk hd w.2 t
    | succ j =>
      rw [show (w :: rest).enumFrom n = (n, w) :: rest.enumFrom (n + 1) from rfl,
          List.foldl_cons]
      have harith : n + (j + 1) + 1 = (n + 1) + j + 1 := by omega
      rw [harith, ih (n + 1) j v _ h]
      congr 1
      exact entries_fold_col_frame objective sign rows _ r _ (by omega) w.2 t


/-- The cell a constraint block row receives from the whole coefficient
fill, in a given variable's column. -/
theorem fillCoefs_cell {V C : Type} [DecidableEq C] (objective : Option C)
    (sign : ℚ) (rows : List (C × ℕ × Bounds)) (k : C) (r0 : ℕ) (b : Bounds)
    (r : ℕ) (hr : ¬ r = 0) (hk : rows.lookup k = some (r0, b))
    (hd : ∀ k' r' b', rows.lookup k' = some (r', b') → ¬ k' = k →
      r < r' ∨ r' + Bounds.sides b' ≤ r)
    (vars : List (V × List (C × ℚ))) (i : ℕ) (v : V × List (C × ℚ))
    (t : Tableau) (h : vars.get? i = some v) :
    (fillCoefs objective sign rows vars t).index r (i + 1)
      = v.2.foldl (fun acc e => if e.1 = k then cellVal b r0 r e.2 acc else acc)
          (t.index r (i + 1)) := by
  unfold fillCoefs
  have hmain := vars_fold_cell objective sign rows k r0 b r hr hk hd vars 0 i v t h
  rw [Nat.zero_add] at hmain
  exact hmain


/-- `fillRhs` peels its first entry. -/
theorem fillRhs_cons {C : Type} (e : C × ℕ × Bounds)
    (rest : List (C × ℕ × Bounds)) (t : Tableau) :
    fillRhs (e :: rest) t = fillRhs rest (fillRhs [e] t) := rfl


/-- The RHS value a single merged constraint writes at `(r, 0)`. -/
theorem fillRhs_singleton_cell {C : Type} (e : C × ℕ × Bounds) (t : Tableau)
    (r : ℕ) :
    (fillRhs [e] t).index r 0 = rhsVal e.2.2 e.2.1 r (t.index r 0) := by
  unfold fillRhs rhsVal
  rw [List.foldl_cons, List.foldl_nil]
  dsimp only
  by_cases hu : e.2.2.upper ≠ ⊤
  · rw [if_pos hu, if_pos hu]
    by_cases hlo : e.2.2.lower ≠ ⊥
    · rw [if_pos hlo]
      by_cases h1 : r = e.2.1 + 1
      · rw [if_pos (show e.2.2.lower ≠ ⊥ ∧ r = e.2.1 + 1 from ⟨hlo, h1⟩),
            index_update, if_pos (show r = e.2.1 + 1 ∧ (0:ℕ) = 0 from ⟨h1, rfl⟩)]
      · rw [if_neg (show ¬(e.2.2.lower ≠ ⊥ ∧ r = e.2.1 + 1) from fun hx => h1 hx.2),
            index_update_ne _ _ _ _ _ _ (fun hx => h1 hx.1)]
        by_cases h0 : r = e.2.1
        · rw [if_pos h0, index_update,
              if_pos (show r = e.2.1 ∧ (0:ℕ) = 0 from ⟨h0, rfl⟩)]
        · rw [if_neg h0, index_update_ne _ _ _ _ _ _ (fun hx => h0 hx.1)]
    · rw [if_neg hlo,
          if_neg (show ¬(e.2.2.lower ≠ ⊥ ∧ r = e.2.1 + 1) from fun hx => hlo hx.1)]
      by_cases h0 : r = e.2.1
      · rw [if_pos h0, index_update,
            if_pos (show r = e.2.1 ∧ (0:ℕ) = 0 from ⟨h0, rfl⟩)]
      · rw [if_neg h0, index_update_ne _ _ _ _ _ _ (fun hx => h0 hx.1)]
  · rw [if_neg hu, if_neg hu]
    by_cases hlo : e.2.2.lower ≠ ⊥
    · rw [if_pos hlo, if_pos hlo]
      by_cases h0 : r = e.2.1
      · rw [if_pos h0, index_update,
            if_pos (show r = e.2.1 ∧ (0:ℕ) = 0 from ⟨h0, rfl⟩)]
      · rw [if_neg h0, index_update_ne _ _ _ _ _ _ (fun hx => h0 hx.1)]
    · rw [if_neg hlo, if_neg hlo]


/-- The RHS write of a block not containing row `r` leaves `(r, 0)` alone. -/
theorem rhsVal_frame (b : Bounds) (r0 r : ℕ) (acc : ℚ)
    (h : r < r0 ∨ r0 + Bounds.sides b ≤ r) :
    rhsVal b r0 r acc = acc := by
  unfold rhsVal
  by_cases hu : b.upper ≠ ⊤
  · rw [if_pos hu]
    by_cases hlo : b.lower ≠ ⊥
    · have hs : Bounds.sides b = 2 := by
        unfold Bounds.sides
        rw [if_neg (fun hx => hlo hx), if_neg (fun hx => hu hx)]
      rw [hs] at h
      rw [if_neg (show ¬(b.lower ≠ ⊥ ∧ r = r0 + 1) from fun hx => by omega),
          if_neg (show ¬ r = r0 from by omega)]
    · have hs : Bounds.sides b = 1 := by
        unfold Bounds.sides
        rw [if_pos (by simpa using hlo), if_neg (fun hx => hu hx)]
      rw [hs] at h
      rw [if_neg (show ¬(b.lower ≠ ⊥ ∧ r = r0 + 1) from fun hx => hlo hx.1),
          if_neg (show ¬ r = r0 from by omega)]
  · rw [if_neg hu]
    by_cases hlo : b.lower ≠ ⊥
    · have hs : 1 ≤ Bounds.sides b := by
        unfold Bounds.sides
        rw [if_neg (fun hx => hlo hx)]
        omega
      rw [if_pos hlo, if_neg (show ¬ r = r0 from by omega)]
    · rw [if_neg hlo]


/-- The RHS fill leaves `(r, 0)` alone when `r` sits in no block. -/
theorem fillRhs_frame {C : Type} (r : ℕ) :
    ∀ (rows : List (C × ℕ × Bounds)) (t : Tableau),
      (∀ e ∈ rows, r < e.2.1 ∨ e.2.1 + e.2.2.sides ≤ r) →
      (fillRhs rows t).index r 0 = t.index r 0 := by
  intro rows
  induction rows with
  | nil => intro t _; rfl
  | cons e rest ih =>
    intro t h
    rw [fillRhs_cons, ih _ (fun x hx => h x (List.mem_cons_of_mem _ hx)),
        fillRhs_singleton_cell, rhsVal_frame _ _ _ _ (h e (List.mem_cons_self _ _))]


/-- The RHS fill leaves all non-zero columns alone. -/
theorem fillRhs_col_frame {C : Type} (r' c' : ℕ) (h : ¬ c' = 0) :
    ∀ (rows : List (C × ℕ × Bounds)) (t : Tableau),
      (fillRhs rows t).index r' c' = t.index r' c' := by
  intro rows
  induction rows with
  | nil => intro t; rfl
  | cons e rest ih =>
    intro t
    rw [fillRhs_cons, ih]
    unfold fillRhs
    rw [List.foldl_cons, List.foldl_nil]
    dsimp only
    repeat' split
    all_goals simp [Tableau.index, Tableau.update, h]


/-- The RHS value row `r` of one merged constraint's block receives from the
whole RHS fill. -/
theorem fillRhs_cell {C : Type} (r : ℕ) :
    ∀ (rows : List (C × ℕ × Bounds)) (t : Tableau) (k : C) (r0 : ℕ) (b : Bounds),
      (k, r0, b) ∈ rows →
      rows.Pairwise (fun e1 e2 => e1.2.1 + e1.2.2.sides ≤ e2.2.1) →
      r0 ≤ r → r < r0 + Bounds.sides b →
      (fillRhs rows t).index r 0 = rhsVal b r0 r (t.index r 0) := by
  intro rows
  induction rows with
  | nil => intro t k r0 b hm; cases hm
  | cons e rest ih =>
    intro t k r0 b hm hpw hr1 hr2
    rw [List.pairwise_cons] at hpw
    rw [fillRhs_cons]
    cases hm with
    | head =>
      rw [fillRhs_frame r rest _
          (fun x hx => Or.inl (lt_of_lt_of_le hr2 (hpw.1 x hx)))]
      exact fillRhs_singleton_cell _ t r
    | tail _ hm =>
      rw [ih (fillRhs [e] t) k r0 b hm hpw.2 hr1 hr2]
      congr 1
      rw [fillRhs_singleton_cell]
      exact rhsVal_frame _ _ _ _ (Or.inr (le_trans (hpw.1 _ hm) hr1))


/-- Binary rows sit at `numConstraints + j`: rows below are untouched. -/
theorem binary_fold_low_frame (nc r c : ℕ) (h : r < nc) :
    ∀ (xs : List (ℕ × ℕ)) (t : Tableau),
      ((xs.foldl
        (fun t e => (t.update (nc + e.1) 0 1).update (nc + e.1) e.2 1) t).index r c)
        = t.index r c := by
  intro xs
  induction xs with
  | nil => intro t; rfl
  | cons e rest ih =>
    intro t
    rw [List.foldl_cons, ih,
        index_update_ne _ _ _ _ _ _ (fun hx => by omega),
        index_update_ne _ _ _ _ _ _ (fun hx => by omega)]


/-- A binary-row fold whose entries all target other rows is a no-op at the
target row. -/
theorem binary_fold_row_ne_frame (nc rT c : ℕ) :
    ∀ (xs : List (ℕ × ℕ)) (t : Tableau),
      (∀ e ∈ xs, ¬ rT = nc + e.1) →
      ((xs.foldl
        (fun t e => (t.update (nc + e.1) 0 1).update (nc + e.1) e.2 1) t).index rT c)
        = t.index rT c := by
  intro xs
  induction xs with
  | nil => intro t _; rfl
  | cons e rest ih =>
    intro t h
    rw [List.foldl_cons, ih _ (fun x hx => h x (List.mem_cons_of_mem _ hx)),
        index_update_ne _ _ _ _ _ _ (fun hx => h e (List.mem_cons_self _ _) hx.1),
        index_update_ne _ _ _ _ _ _ (fun hx => h e (List.mem_cons_self _ _) hx.1)]


/-- The cell content of the `j`-th binary row after the binary fold. -/
theorem binary_fold_cell (nc c : ℕ) :
    ∀ (bins : List ℕ) (n j cb : ℕ) (t : Tableau), bins.get? j = some cb →
      (((bins.enumFrom n).foldl
        (fun t e => (t.update (nc + e.1) 0 1).update (nc + e.1) e.2 1) t).index (nc + (n + j)) c)
        = if c = cb ∨ c = 0 then 1 else t.index (nc + (n + j)) c := by
  intro bins
  induction bins with
  | nil => intro n j cb t h; cases h
  | cons x rest ih =>
    intro n j cb t h
    cases j with
    | zero =>
      injection h with h
      subst h
      rw [show (x :: rest).enumFrom n = (n, x) :: rest.enumFrom (n + 1) from rfl,
          List.foldl_cons]
      rw [binary_fold_row_ne_frame nc _ c _ _
          (fun e he hx => by
            have := enumFrom_fst_le rest (n + 1) e he
            omega)]
      by_cases hc : c = x
      · rw [index_update, if_pos (show nc + (n + 0) = nc + n ∧ c = x from ⟨by omega, hc⟩),
            if_pos (Or.inl hc)]
      · rw [index_update_ne _ _ _ _ _ _ (fun hx => hc hx.2)]
        by_cases h0 : c = 0
        · rw [index_update, if_pos (show nc + (n + 0) = nc + n ∧ c = 0 from ⟨by omega, h0⟩),
              if_pos (Or.inr h0)]
        · rw [index_update_ne _ _ _ _ _ _ (fun hx => h0 hx.2),
              if_neg (fun hx => hx.elim hc h0)]
    | succ j' =>
      rw [show (x :: rest).enumFrom n = (n, x) :: rest.enumFrom (n + 1) from rfl,
          List.foldl_cons,
          show nc + (n + (j' + 1)) = nc + ((n + 1) + j') from by omega,
          ih (n + 1) j' cb _ h]
      congr 1
      rw [index_update_ne _ _ _ _ _ _ (fun hx => by omega),
          index_update_ne _ _ _ _ _ _ (fun hx => by omega)]


/-- The cell content of the `j`-th binary row after `fillBinary`. -/
theorem fillBinary_cell (nc : ℕ) (binCols : List ℕ) (j cb c : ℕ)
    (t : Tableau) (h : binCols.get? j = some cb) :
    (fillBinary nc binCols t).index (nc + j) c
      = if c = cb ∨ c = 0 then 1 else t.index (nc + j) c := by
  unfold fillBinary
  have hmain := binary_fold_cell nc c binCols 0 j cb t h
  rw [Nat.zero_add] at hmain
  exact hmain


/-- Rows below `numConstraints` are untouched by `fillBinary`. -/
theorem fillBinary_low_frame (nc : ℕ) (binCols : List ℕ) (r c : ℕ)
    (h : r < nc) (t : Tableau) :
    (fillBinary nc binCols t).index r c = t.index r c := by
  unfold fillBinary
  exact binary_fold_low_frame nc r c h binCols.enum t


/-- Two distinct members of a pairwise-related list are related one way or
the other. -/
theorem pairwise_mem_duo {α : Type} {R : α → α → Prop} :
    ∀ {l : List α}, l.Pairwise R → ∀ {a b : α}, a ∈ l → b ∈ l → ¬ a = b →
      R a b ∨ R b a := by
  intro l hpw
  induction hpw with
  | nil => intro a b ha; cases ha
  | cons hhead _ ih =>
    intro a b ha hb hne
    cases ha with
    | head =>
      cases hb with
      | head => exact absurd rfl hne
      | tail _ hb => exact Or.inl (hhead b hb)
    | tail _ ha =>
      cases hb with
      | head => exact Or.inr (hhead a ha)
      | tail _ hb => exact ih ha hb hne


theorem sides_pos_of_upper (b : Bounds) (hu : b.upper ≠ ⊤) : 1 ≤ b.sides := by
  unfold Bounds.sides
  rw [if_neg (fun hx => hu hx)]
  omega


theorem sides_pos_of_lower (b : Bounds) (hlo : b.lower ≠ ⊥) : 1 ≤ b.sides := by
  unfold Bounds.sides
  rw [if_neg (fun hx => hlo hx)]
  omega


theorem sides_eq_two (b : Bounds) (hu : b.upper ≠ ⊤) (hlo : b.lower ≠ ⊥) :
    b.sides = 2 := by
  unfold Bounds.sides
  rw [if_neg (fun hx => hlo hx), if_neg (fun hx => hu hx)]


theorem rhsVal_at_upper (b : Bounds) (r0 : ℕ) (acc : ℚ) (hu : b.upper ≠ ⊤) :
    rhsVal b r0 r0 acc = b.upper.untop' 0 := by
  unfold rhsVal
  rw [if_pos hu, if_neg (show ¬(b.lower ≠ ⊥ ∧ r0 = r0 + 1) from fun hx => by omega),
      if_pos rfl]


theorem rhsVal_at_lower_pair (b : Bounds) (r0 : ℕ) (acc : ℚ) (hu : b.upper ≠ ⊤)
    (hlo : b.lower ≠ ⊥) :
    rhsVal b r0 (r0 + 1) acc = -(b.lower.unbot' 0) := by
  unfold rhsVal
  rw [if_pos hu, if_pos (show b.lower ≠ ⊥ ∧ r0 + 1 = r0 + 1 from ⟨hlo, rfl⟩)]


theorem rhsVal_at_lower_only (b : Bounds) (r0 : ℕ) (acc : ℚ) (hu : ¬ b.upper ≠ ⊤)
    (hlo : b.lower ≠ ⊥) :
    rhsVal b r0 r0 acc = -(b.lower.unbot' 0) := by
  unfold rhsVal
  rw [if_neg hu, if_pos hlo, if_pos rfl]


/-- In the upper row, each matching coefficient write stores the raw
coefficient, so the fold is the last-wins coefficient fold. -/
theorem cellVal_fold_upper {C : Type} [DecidableEq C] (k : C) (b : Bounds)
    (r0 : ℕ) (hu : b.upper ≠ ⊤) :
    ∀ (entries : List (C × ℚ)) (x : ℚ),
      entries.foldl (fun acc e => if e.1 = k then cellVal b r0 r0 e.2 acc else acc) x
        = entries.foldl (fun acc e => if e.1 = k then e.2 else acc) x := by
  intro entries
  induction entries with
  | nil => intro x; rfl
  | cons e rest ih =>
    intro x
    rw [List.foldl_cons, List.foldl_cons, ih]
    congr 1
    by_cases he : e.1 = k
    · rw [if_pos he, if_pos he]
      unfold cellVal
      rw [if_pos hu, if_neg (show ¬(b.lower ≠ ⊥ ∧ r0 = r0 + 1) from fun hx => by omega),
          if_pos rfl]
    · rw [if_neg he, if_neg he]


/-- In a lower row below an upper row, each matching write stores the negated
coefficient. -/
theorem cellVal_fold_lower_pair {C : Type} [DecidableEq C] (k : C) (b : Bounds)
    (r0 : ℕ) (hu : b.upper ≠ ⊤) (hlo : b.lower ≠ ⊥) :
    ∀ (entries : List (C × ℚ)) (x : ℚ),
      entries.foldl
        (fun acc e => if e.1 = k then cellVal b r0 (r0 + 1) e.2 acc else acc) x
        = entries.foldl (fun acc e => if e.1 = k then -e.2 else acc) x := by
  intro entries
  induction entries with
  | nil => intro x; rfl
  | cons e rest ih =>
    intro x
    rw [List.foldl_cons, List.foldl_cons, ih]
    congr 1
    by_cases he : e.1 = k
    · rw [if_pos he, if_pos he]
      unfold cellVal
      rw [if_pos hu, if_pos (show b.lower ≠ ⊥ ∧ r0 + 1 = r0 + 1 from ⟨hlo, rfl⟩)]
    · rw [if_neg he, if_neg he]


/-- In a lower-only row, each matching write stores the negated coefficient. -/
theorem cellVal_fold_lower_only {C : Type} [DecidableEq C] (k : C) (b : Bounds)
    (r0 : ℕ) (hu : ¬ b.upper ≠ ⊤) (hlo : b.lower ≠ ⊥) :
    ∀ (entries : List (C × ℚ)) (x : ℚ),
      entries.foldl (fun acc e => if e.1 = k then cellVal b r0 r0 e.2 acc else acc) x
        = entries.foldl (fun acc e => if e.1 = k then -e.2 else acc) x := by
  intro entries
  induction entries with
  | nil => intro x; rfl
  | cons e rest ih =>
    intro x
    rw [List.foldl_cons, List.foldl_cons, ih]
    congr 1
    by_cases he : e.1 = k
    · rw [if_pos he, if_pos he]
      unfold cellVal
      rw [if_neg hu, if_pos hlo, if_pos rfl]
    · rw [if_neg he, if_neg he]


/-- The negated coefficient fold is the negation of the coefficient fold. -/
theorem neg_coef_fold {C : Type} [DecidableEq C] (k : C) :
    ∀ (entries : List (C × ℚ)) (x y : ℚ), y = -x →
      entries.foldl (fun acc e => if e.1 = k then -e.2 else acc) y
        = -(entries.foldl (fun acc e => if e.1 = k then e.2 else acc) x) := by
  intro entries
  induction entries with
  | nil => intro x y h; rw [List.foldl_nil, List.foldl_nil, h]
  | cons e rest ih =>
    intro x y h
    rw [List.foldl_cons, List.foldl_cons]
    by_cases he : e.1 = k
    · rw [if_pos he, if_pos he]
      exact ih e.2 (-e.2) rfl
    · rw [if_neg he, if_neg he]
      exact ih x y h


/-- The whole coefficient fill leaves non-objective rows outside all
constraint blocks untouched. -/
theorem fillCoefs_row_frame {V C : Type} [DecidableEq C] (objective : Option C)
    (sign : ℚ) (rows : List (C × ℕ × Bounds)) (r c' : ℕ) (hr : ¬ r = 0)
    (hsp : ∀ k' r0 b, rows.lookup k' = some (r0, b) →
      r < r0 ∨ r0 + Bounds.sides b ≤ r)
    (vars : List (V × List (C × ℚ))) (t : Tableau) :
    (fillCoefs objective sign rows vars t).index r c' = t.index r c' := by
  unfold fillCoefs
  exact vars_fold_row_frame objective sign rows r c' hr hsp vars.enum t


/-- Row-content of the filled tableau: each merged constraint's upper side is
a row of `+C` coefficients with RHS `U`, its lower side a row of `-C` with
RHS `-L` immediately after the upper row when both are present, and each
binary column gets one extra row holding `1` in column `0` and its own
column and `0` elsewhere. -/
theorem pipeline_cells {V C : Type} [DecidableEq V] [DecidableEq C]
    (objective : Option C) (sign : ℚ) (merged : List (C × Bounds))
    (binCols : List ℕ) (vars : List (V × List (C × ℚ))) (t0 : Tableau)
    (hz : ∀ r c, t0.index r c = 0)
    (hnd : (merged.map Prod.fst).Nodup) :
    (∀ k r0 b, (k, r0, b) ∈ rowsList 1 merged →
      ((b.upper ≠ ⊤ →
        (pipeline objective sign merged binCols vars t0).index r0 0
          = b.upper.untop' 0 ∧
        ∀ i v, vars.get? i = some v →
          (pipeline objective sign merged binCols vars t0).index r0 (i + 1)
            = coefOf k v.2) ∧
       (b.upper ≠ ⊤ → b.lower ≠ ⊥ →
        (pipeline objective sign merged binCols vars t0).index (r0 + 1) 0
          = -(b.lower.unbot' 0) ∧
        ∀ i v, vars.get? i = some v →
          (pipeline objective sign merged binCols vars t0).index (r0 + 1) (i + 1)
            = -(coefOf k v.2)) ∧
       (b.upper = ⊤ → b.lower ≠ ⊥ →
        (pipeline objective sign merged binCols vars t0).index r0 0
          = -(b.lower.unbot' 0) ∧
        ∀ i v, vars.get? i = some v →
          (pipeline objective sign merged binCols vars t0).index r0 (i + 1)
            = -(coefOf k v.2)))) ∧
    (∀ j cb, binCols.get? j = some cb →
      (pipeline objective sign merged binCols vars t0).index
        (1 + sumSides merged + j) 0 = 1 ∧
      (pipeline objective sign merged binCols vars t0).index
        (1 + sumSides merged + j) cb = 1 ∧
      ∀ c, ¬ c = 0 → ¬ c = cb →
        (pipeline objective sign merged binCols vars t0).index
          (1 + sumSides merged + j) c = 0) := by
  have hpw := rowsList_pairwise merged 1
  constructor
  · intro k r0 b hmem
    obtain ⟨hge1, hle, _⟩ := rowsList_mem merged 1 _ hmem
    dsimp only at hge1 hle
    have hrkeys : (rowsList 1 merged).map Prod.fst = merged.map Prod.fst :=
      rowsList_keys merged 1
    have hnd' : ((rowsList 1 merged).map Prod.fst).Nodup := by
      rw [hrkeys]
      exact hnd
    have hk : (rowsList 1 merged).lookup k = some (r0, b) :=
      nodup_lookup k (r0, b) _ hnd' hmem
    have hdgen : ∀ r, r0 ≤ r → r < r0 + Bounds.sides b →
        ∀ k' r' b', (rowsList 1 merged).lookup k' = some (r', b') → ¬ k' = k →
          r < r' ∨ r' + Bounds.sides b' ≤ r := by
      intro r hra hrb k' r' b' hlk hne
      have hm2 : (k', r', b') ∈ rowsList 1 merged := lookup_mem k' (r', b') _ hlk
      have hneq : ¬ ((k, r0, b) : C × ℕ × Bounds) = (k', r', b') := fun hx =>
        hne (show k' = k from (congrArg Prod.fst hx).symm)
      rcases pairwise_mem_duo hpw hmem hm2 hneq with hc | hc
      · exact Or.inl (lt_of_lt_of_le hrb hc)
      · exact Or.inr (le_trans hc hra)
    refine ⟨?_, ?_, ?_⟩
    · intro hu
      have hs1 : 1 ≤ Bounds.sides b := sides_pos_of_upper b hu
      have hrT : r0 < 1 + sumSides merged := by omega
      have hr0 : ¬ r0 = 0 := by omega
      constructor
      · unfold pipeline
        rw [fillBinary_low_frame _ _ _ _ hrT,
            fillRhs_cell r0 (rowsList 1 merged) _ k r0 b hmem hpw
              (Nat.le_refl r0) (by omega),
            rhsVal_at_upper b r0 _ hu]
      · intro i v hv
        unfold pipeline
        rw [fillBinary_low_frame _ _ _ _ hrT,
            fillRhs_col_frame _ _ (Nat.succ_ne_zero i),
            fillCoefs_cell objective sign _ k r0 b r0 hr0 hk
              (hdgen r0 (Nat.le_refl r0) (by omega)) vars i v t0 hv,
            hz r0 (i + 1),
            cellVal_fold_upper k b r0 hu]
        rfl
    · intro hu hlo
      have hs2 : Bounds.sides b = 2 := sides_eq_two b hu hlo
      have hrT : r0 + 1 < 1 + sumSides merged := by omega
      have hr0 : ¬ r0 + 1 = 0 := by omega
      constructor
      · unfold pipeline
        rw [fillBinary_low_frame _ _ _ _ hrT,
            fillRhs_cell (r0 + 1) (rowsList 1 merged) _ k r0 b hmem hpw
              (Nat.le_succ r0) (by omega),
            rhsVal_at_lower_pair b r0 _ hu hlo]
      · intro i v hv
        unfold pipeline
        rw [fillBinary_low_frame _ _ _ _ hrT,
            fillRhs_col_frame _ _ (Nat.succ_ne_zero i),
            fillCoefs_cell objective sign _ k r0 b (r0 + 1) hr0 hk
              (hdgen (r0 + 1) (Nat.le_succ r0) (by omega)) vars i v t0 hv,
            hz (r0 + 1) (i + 1),
            cellVal_fold_lower_pair k b r0 hu hlo,
            neg_coef_fold k v.2 0 0 (by norm_num)]
        rfl
    · intro hu hlo
      have hu' : ¬ b.upper ≠ ⊤ := fun hx => hx hu
      have hs1 : 1 ≤ Bounds.sides b := sides_pos_of_lower b hlo
      have hrT : r0 < 1 + sumSides merged := by omega
      have hr0 : ¬ r0 = 0 := by omega
      constructor
      · unfold pipeline
        rw [fillBinary_low_frame _ _ _ _ hrT,
            fillRhs_cell r0 (rowsList 1 merged) _ k r0 b hmem hpw
              (Nat.le_refl r0) (by omega),
            rhsVal_at_lower_only b r0 _ hu' hlo]
      · intro i v hv
        unfold pipeline
        rw [fillBinary_low_frame _ _ _ _ hrT,
            fillRhs_col_frame _ _ (Nat.succ_ne_zero i),
            fillCoefs_cell objective sign _ k r0 b r0 hr0 hk
              (hdgen r0 (Nat.le_refl r0) (by omega)) vars i v t0 hv,
            hz r0 (i + 1),
            cellVal_fold_lower_only k b r0 hu' hlo,
            neg_coef_fold k v.2 0 0 (by norm_num)]
        rfl
  · intro j cb hj
    have hrow0 : ¬ (1 + sumSides merged + j) = 0 := by omega
    have ht1 : ∀ c,
        (fillRhs (rowsList 1 merged)
          (fillCoefs objective sign (rowsList 1 merged) vars t0)).index
          (1 + sumSides merged + j) c = 0 := by
      intro c
      have hcoefs : ∀ c',
          (fillCoefs objective sign (rowsList 1 merged) vars t0).index
            (1 + sumSides merged + j) c' = 0 := by
        intro c'
        rw [fillCoefs_row_frame objective sign _ _ c' hrow0 (fun k' r' b' hlk => by
          obtain ⟨_, hle', _⟩ := rowsList_mem merged 1 _ (lookup_mem k' (r', b') _ hlk)
          dsimp only at hle'
          exact Or.inr (by omega))]
        exact hz _ c'
      by_cases hc : c = 0
      · subst hc
        rw [fillRhs_frame _ _ _ (fun e he => by
            obtain ⟨_, hle', _⟩ := rowsList_mem merged 1 e he
            exact Or.inr (by omega))]
        exact hcoefs 0
      · rw [fillRhs_col_frame _ c hc]
        exact hcoefs c
    refine ⟨?_, ?_, ?_⟩
    · unfold pipeline
      rw [fillBinary_cell _ _ j cb 0 _ hj, if_pos (Or.inr rfl)]
    · unfold pipeline
      rw [fillBinary_cell _ _ j cb cb _ hj, if_pos (Or.inl rfl)]
    · intro c hc0 hccb
      unfold pipeline
      rw [fillBinary_cell _ _ j cb c _ hj, if_neg (fun hx => hx.elim hccb hc0)]
      exact ht1 c


/-- C4: the tableau built from every model encodes each merged constraint
with finite upper bound `U` as a row with RHS `U` and the raw (last-wins)
variable coefficients `+C`; each merged constraint with finite lower bound
`L` as a row with RHS `-L` and coefficients `-C`, placed immediately after
the upper row when both sides are finite (and at the constraint's first row
otherwise); and appends for each binary variable with column `cb` one extra
row holding RHS `1`, a single `+1` in column `cb`, and `0` elsewhere. -/
theorem tableau_row_encoding_c4 {V C : Type} [DecidableEq V] [DecidableEq C]
    (m : Model V C) :
    (∀ k r0 b, (k, r0, b) ∈ (assignRows (mergeConstraints m.constraints)).1 →
      ((b.upper ≠ ⊤ →
        (tableauModel m).tableau.index r0 0 = b.upper.untop' 0 ∧
        ∀ i v, m.vars.get? i = some v →
          (tableauModel m).tableau.index r0 (i + 1) = coefOf k v.2) ∧
       (b.upper ≠ ⊤ → b.lower ≠ ⊥ →
        (tableauModel m).tableau.index (r0 + 1) 0 = -(b.lower.unbot' 0) ∧
        ∀ i v, m.vars.get? i = some v →
          (tableauModel m).tableau.index (r0 + 1) (i + 1) = -(coefOf k v.2)) ∧
       (b.upper = ⊤ → b.lower ≠ ⊥ →
        (tableauModel m).tableau.index r0 0 = -(b.lower.unbot' 0) ∧
        ∀ i v, m.vars.get? i = some v →
          (tableauModel m).tableau.index r0 (i + 1) = -(coefOf k v.2)))) ∧
    (∀ j cb, (modelBinCols m).get? j = some cb →
      (tableauModel m).tableau.index
        ((assignRows (mergeConstraints m.constraints)).2 + j) 0 = 1 ∧
      (tableauModel m).tableau.index
        ((assignRows (mergeConstraints m.constraints)).2 + j) cb = 1 ∧
      ∀ c, ¬ c = 0 → ¬ c = cb →
        (tableauModel m).tableau.index
          ((assignRows (mergeConstraints m.constraints)).2 + j) c = 0) := by
  unfold tableauModel
  dsimp only
  rw [assignRows_eq]
  dsimp only
  exact pipeline_cells m.objective _ (mergeConstraints m.constraints)
    (modelBinCols m) m.vars _ (fun r c => rfl)
    (mergeConstraints_keys_nodup m.constraints [] (by simp))


section C4WitnessDecide


attribute [local semireducible] Rat.add Rat.mul Rat.inv Rat.sub


theorem tableau_row_encoding_c4_witness :
    ((0, 1, ({ lower := (1 : ℚ), upper := (4 : ℚ) } : Bounds))
        ∈ (assignRows (mergeConstraints c4m.constraints)).1) ∧
    (modelBinCols c4m).get? 0 = some 2 ∧
    (tableauModel c4m).tableau.index 1 0 = 4 ∧
    (tableauModel c4m).tableau.index 1 1 = 2 ∧
    (tableauModel c4m).tableau.index 1 2 = 3 ∧
    (tableauModel c4m).tableau.index 2 0 = -1 ∧
    (tableauModel c4m).tableau.index 2 1 = -2 ∧
    (tableauModel c4m).tableau.index 2 2 = -3 ∧
    (tableauModel c4m).tableau.index
      ((assignRows (mergeConstraints c4m.constraints)).2 + 0) 0 = 1 ∧
    (tableauModel c4m).tableau.index
      ((assignRows (mergeConstraints c4m.constraints)).2 + 0) 2 = 1 ∧
    (tableauModel c4m).tableau.index
      ((assignRows (mergeConstraints c4m.constraints)).2 + 0) 1 = 0 := by
  have H := tableau_row_encoding_c4 c4m
  have hmem : (0, 1, ({ lower := (1 : ℚ), upper := (4 : ℚ) } : Bounds))
      ∈ (assignRows (mergeConstraints c4m.constraints)).1 := by decide
  have hbin : (modelBinCols c4m).get? 0 = some 2 := by decide
  have HU := (H.1 0 1 _ hmem).1 (by decide)
  have HL := (H.1 0 1 _ hmem).2.1 (by decide) (by decide)
  have HB := H.2 0 2 hbin
  exact ⟨hmem, hbin,
    HU.1.trans (by decide),
    (HU.2 0 (5, [(0, 2)]) (by decide)).trans (by decide),
    (HU.2 1 (7, [(0, 3)]) (by decide)).trans (by decide),
    HL.1.trans (by decide),
    (HL.2 0 (5, [(0, 2)]) (by decide)).trans (by decide),
    (HL.2 1 (7, [(0, 3)]) (by decide)).trans (by decide),
    HB.1, HB.2.1, HB.2.2 1 (by decide) (by decide)⟩


end C4WitnessDecide


section C7Decide


attribute [local semireducible] Rat.add Rat.mul Rat.inv Rat.sub


/-- Claim C7 (counterexample): on `c7m` with precision `1/10` the root
relaxation is optimal (value `-8` internally) and fractional, the loop's
first iteration pops the ceiling branch `y ≥ 1` (infeasible), and its second
iteration pops the floor branch `y ≤ 0` and runs the simplex on the
cut-extended tableau — which returns `"unbounded"` (column 1): the cut row's
coefficients `1/12` lie below the precision threshold, so no pivot row is
admissible even though the relaxation is bounded. -/
theorem branchAndCut_unbounded_c7_counterexample :
    (simplex (tableauModel c7m).tableau c7o).1 = .optimal (-8) ∧
    c7o.precision < (mostFractionalVar c7T (tableauModel c7m).integers).2.2 ∧
    mostFractionalVar c7T (tableauModel c7m).integers = (2, 1/2, 1/2) ∧
    heapPop c7s0.queue
      = some (((-8 : ℚ), [((-1 : ℚ), 2, 1)]), [((-8 : ℚ), [((1 : ℚ), 2, 0)])]) ∧
    (simplex (applyCuts c7s0.root c7s0.candBuf [((-1 : ℚ), 2, 1)]).2 c7o).1
      = .infeasible ∧
    heapPop c7s1.queue = some (((-8 : ℚ), [((1 : ℚ), 2, 0)]), ([] : List Branch)) ∧
    (simplex (applyCuts c7s1.root c7s1.candBuf [((1 : ℚ), 2, 0)]).2 c7o).1
      = .unbounded 1 :=
  ⟨by decide, by decide, by decide, by decide, by decide, by decide, by decide⟩


end C7Decide


/-- Claim C7 (amended): a simplex run inside branch-and-cut on a
cut-extended tableau can return `"unbounded"` (when matrix entries within
the precision threshold are treated as zero by the pivoting rules); such a
run is discarded exactly like an infeasible or cycled one — the iteration
keeps the incumbent data and pushes no sub-branches, leaving only the popped
queue. -/
theorem branchAndCut_unbounded_discarded_c7 (o : Options) (ints : List ℕ)
    (clk : ℕ → ℚ) (stopTime : WithTop ℚ) (s : BCState)
    (re : ℚ) (cuts : List Cut) (q' : List Branch) (col : ℕ)
    (hpop : heapPop s.queue = some ((re, cuts), q'))
    (hbd : ¬ s.bestEval < (re : WithTop ℚ))
    (hrun : (simplex (applyCuts s.root s.candBuf cuts).2 o).1 = .unbounded col) :
    (bcStep o ints clk stopTime s).1.queue = q' ∧
    (bcStep o ints clk stopTime s).1.found = s.found ∧
    (bcStep o ints clk stopTime s).1.bestEval = s.bestEval ∧
    (bcStep o ints clk stopTime s).1.bestT = s.bestT ∧
    (bcStep o ints clk stopTime s).2 = true := by
  unfold bcStep
  rw [hpop]
  dsimp only
  rw [if_neg hbd]
  dsimp only
  rw [hrun]
  exact ⟨rfl, rfl, rfl, rfl, rfl⟩


section C7WitnessDecide


attribute [local semireducible] Rat.add Rat.mul Rat.inv Rat.sub


theorem branchAndCut_unbounded_discarded_c7_witness :
    (heapPop c7s1.queue = some (((-8 : ℚ), [((1 : ℚ), 2, 0)]), ([] : List Branch)) ∧
     ¬ c7s1.bestEval < ((-8 : ℚ) : WithTop ℚ) ∧
     (simplex (applyCuts c7s1.root c7s1.candBuf [((1 : ℚ), 2, 0)]).2 c7o).1
       = .unbounded 1) ∧
    ((bcStep c7o (tableauModel c7m).integers (fun _ => 0) ⊤ c7s1).1.queue = [] ∧
     (bcStep c7o (tableauModel c7m).integers (fun _ => 0) ⊤ c7s1).1.found = c7s1.found ∧
     (bcStep c7o (tableauModel c7m).integers (fun _ => 0) ⊤ c7s1).1.bestEval = c7s1.bestEval ∧
     (bcStep c7o (tableauModel c7m).integers (fun _ => 0) ⊤ c7s1).1.bestT = c7s1.bestT ∧
     (bcStep c7o (tableauModel c7m).integers (fun _ => 0) ⊤ c7s1).2 = true) :=
  ⟨⟨by decide, by decide, by decide⟩,
   branchAndCut_unbounded_discarded_c7 c7o (tableauModel c7m).integers (fun _ => 0) ⊤
     c7s1 (-8) [((1 : ℚ), 2, 0)] [] 1 (by decide) (by decide) (by decide)⟩


end C7WitnessDecide

